import Mathlib

/-!
# Image-matching server: bounded request queue and nearest-match index

A shallow embedding of `src/server.c`.

* The request queue is the global state `request_queue`, `queue_count`,
  `add_index`, `remove_index`; each mutex-protected critical section of
  `dispatch` and `worker` is one atomic step on that state.  A step has three
  possible outcomes: it waits on its condition variable (`blocked`), it runs
  into behaviour the C standard leaves undefined (`undefined`: an index outside
  the 100-slot array, `% 0`, signed overflow), or it completes (`done`).
* C `int` values are `Int`; every place where an `int` of the queue state
  could overflow is an `undefined` outcome, so no wrap-around arithmetic is
  needed.  The sizes handed to `calculate_mse` are assumed to be `int`s
  (`INT_MIN ≤ size ≤ INT_MAX`) where that matters.
* Pointers are addresses (`Nat`, `0` is `NULL`) into a byte memory
  `Nat → Int` holding `char` values.
* `double` values are NaN, an infinity or an exact rational; every operation
  rounds to the nearest binary64 value, so `0.0 / 0` is NaN and comparisons
  with NaN are false, as on the IEEE 754 targets the server is built for.
* The effects of a worker iteration are a list of actions in program order.
-/

namespace ImageServer

/-! ## Request queue -/

/-- Modelled from the spec: the declaration of `request_t` lives in
`include/server.h`, which is not part of the sources; the three fields are the
ones `dispatch` writes and `worker` reads (connection handle, payload, size). -/
structure request_t where
  file_descriptor : Int
  buffer : Nat
  file_size : Int
deriving DecidableEq

/-- The globals guarded by `queue_mutex` (`server.c` lines 12-15). -/
structure QueueState where
  request_queue : Int → request_t
  queue_count : Int
  add_index : Int
  remove_index : Int

/-- Result of one atomic critical section. -/
inductive Outcome (α : Type) where
  | blocked : Outcome α
  | undefined : Outcome α
  | done (a : α) : Outcome α

/-- Largest value of a C `int` (32 bits). -/
def INT_MAX : Int := 2147483647

/-- Smallest value of a C `int` (32 bits). -/
def INT_MIN : Int := -2147483648

/-- Number of slots of `request_t request_queue[100]`. -/
def QUEUE_SLOTS : Int := 100

/-- Zero-initialised globals: the state before any thread runs. -/
def QueueState.init : QueueState :=
  { request_queue := fun _ => ⟨0, 0, 0⟩, queue_count := 0, add_index := 0, remove_index := 0 }

/-- Critical section of `dispatch` (`server.c` lines 172-190): wait while
`queue_count == queue_len`, then store the request in slot `add_index`,
advance `add_index` modulo `queue_len` (C `%` truncates, hence `Int.tmod`) and
increment `queue_count`.  `fd`, `buffer` and `file_size` are the three values
the dispatcher writes into the slot, `file_size` already converted to the type
of the field. -/
def dispatch (queue_len : Int) (s : QueueState) (fd : Int) (buffer : Nat) (file_size : Int) :
    Outcome QueueState :=
  if s.queue_count = queue_len then Outcome.blocked
  else if s.add_index < 0 ∨ QUEUE_SLOTS ≤ s.add_index then Outcome.undefined
  else if queue_len = 0 then Outcome.undefined
  else if s.queue_count = INT_MAX then Outcome.undefined
  else Outcome.done
    { request_queue := fun i =>
        if i = s.add_index then ⟨fd, buffer, file_size⟩ else s.request_queue i
      queue_count := s.queue_count + 1
      add_index := (s.add_index + 1).tmod queue_len
      remove_index := s.remove_index }

/-- Critical section of `worker` (`server.c` lines 209-223): wait while
`queue_count == 0`, then copy the request out of slot `remove_index`, advance
`remove_index` modulo `queue_len` and decrement `queue_count`. -/
def worker_dequeue (queue_len : Int) (s : QueueState) : Outcome (QueueState × request_t) :=
  if s.queue_count = 0 then Outcome.blocked
  else if s.remove_index < 0 ∨ QUEUE_SLOTS ≤ s.remove_index then Outcome.undefined
  else if queue_len = 0 then Outcome.undefined
  else if s.queue_count = INT_MIN then Outcome.undefined
  else Outcome.done
    ({ request_queue := s.request_queue
       queue_count := s.queue_count - 1
       add_index := s.add_index
       remove_index := (s.remove_index + 1).tmod queue_len },
     s.request_queue s.remove_index)

/-- One scheduled critical section: a dispatcher enqueuing a request it has
read, or a worker dequeuing. -/
inductive QueueOp where
  | enqueue (fd : Int) (buffer : Nat) (file_size : Int) : QueueOp
  | dequeue : QueueOp
deriving DecidableEq

/-- Run a schedule of critical sections from state `s`, collecting the
requests handed to workers in delivery order.  The run is `blocked` or
`undefined` as soon as one step is. -/
def run (queue_len : Int) : QueueState → List QueueOp → Outcome (QueueState × List request_t)
  | s, [] => Outcome.done (s, [])
  | s, QueueOp.enqueue fd buffer file_size :: ops =>
    match dispatch queue_len s fd buffer file_size with
    | Outcome.done s1 => run queue_len s1 ops
    | Outcome.blocked => Outcome.blocked
    | Outcome.undefined => Outcome.undefined
  | s, QueueOp.dequeue :: ops =>
    match worker_dequeue queue_len s with
    | Outcome.done (s1, r) =>
      match run queue_len s1 ops with
      | Outcome.done (s2, out) => Outcome.done (s2, r :: out)
      | Outcome.blocked => Outcome.blocked
      | Outcome.undefined => Outcome.undefined
    | Outcome.blocked => Outcome.blocked
    | Outcome.undefined => Outcome.undefined

/-- The requests a schedule enqueues, in order. -/
def enqueued : List QueueOp → List request_t
  | [] => []
  | QueueOp.enqueue fd buffer file_size :: ops => ⟨fd, buffer, file_size⟩ :: enqueued ops
  | QueueOp.dequeue :: ops => enqueued ops

/-- The `queue_count` requests stored from `remove_index` onwards, wrapping
around at `queue_len`. -/
def pending (queue_len : Int) (s : QueueState) : List request_t :=
  (List.range s.queue_count.toNat).map
    (fun (k : Nat) => s.request_queue ((s.remove_index + (k : Int)) % queue_len))

/-- States reachable from the initial one by completed critical sections. -/
inductive Reachable (queue_len : Int) : QueueState → Prop where
  | init : Reachable queue_len QueueState.init
  | enqueue {s s1 : QueueState} (fd : Int) (buffer : Nat) (file_size : Int) :
      Reachable queue_len s → dispatch queue_len s fd buffer file_size = Outcome.done s1 →
      Reachable queue_len s1
  | dequeue {s s1 : QueueState} {r : request_t} :
      Reachable queue_len s → worker_dequeue queue_len s = Outcome.done (s1, r) →
      Reachable queue_len s1

/-- Ring-buffer invariant for a capacity of at least one slot. -/
structure RingInv (queue_len : Int) (s : QueueState) : Prop where
  count_nonneg : 0 ≤ s.queue_count
  count_le : s.queue_count ≤ queue_len
  add_nonneg : 0 ≤ s.add_index
  add_lt : s.add_index < queue_len
  remove_nonneg : 0 ≤ s.remove_index
  remove_lt : s.remove_index < queue_len
  add_eq : s.add_index = (s.remove_index + s.queue_count) % queue_len

/-! ## IEEE 754 binary64 arithmetic

`calculate_mse` works in `double`.  A `double` is NaN, an infinity or a finite
value; finite values are kept as exact rationals (the two signed zeros are
identified: they compare equal and the program never divides by a computed
zero).  Every operation rounds its exact result to the nearest binary64 value,
ties to even, and overflows to an infinity above `DBL_MAX`. -/

/-- A value of C type `double`. -/
inductive Dbl where
  | nan : Dbl
  | inf (negative : Bool) : Dbl
  | fin (q : ℚ) : Dbl
deriving DecidableEq

/-- Nearest integer, ties to the even one. -/
def roundTiesEven (x : ℚ) : ℤ :=
  if x - ⌊x⌋ < 1 / 2 then ⌊x⌋
  else if 1 / 2 < x - ⌊x⌋ then ⌊x⌋ + 1
  else if ⌊x⌋ % 2 = 0 then ⌊x⌋ else ⌊x⌋ + 1

/-- Exponent of the unit in the last place of the binary64 binade containing
`q`: 53 significant bits, smallest normal exponent `-1022`. -/
def ulpExponent (q : ℚ) : ℤ := max (Int.log 2 |q|) (-1022) - 52

/-- Round to the nearest binary64 value (unbounded above), ties to even. -/
def round64 (q : ℚ) : ℚ := (roundTiesEven (q / 2 ^ ulpExponent q) : ℚ) * 2 ^ ulpExponent q

/-- Largest finite `double`, the constant `DBL_MAX` of `<float.h>`. -/
def DBL_MAX : ℚ := (2 ^ 53 - 1) * 2 ^ 971

/-- The `double` an exact result is delivered as. -/
def Dbl.ofRat (q : ℚ) : Dbl :=
  if DBL_MAX < |round64 q| then Dbl.inf (decide (q < 0)) else Dbl.fin (round64 q)

/-- Conversion of an `int` to `double`. -/
def Dbl.ofInt (n : Int) : Dbl := Dbl.ofRat n

/-- Sum of two `double`s, as in `+=`. -/
def Dbl.add : Dbl → Dbl → Dbl
  | Dbl.fin x, Dbl.fin y => Dbl.ofRat (x + y)
  | Dbl.fin _, Dbl.inf s => Dbl.inf s
  | Dbl.inf s, Dbl.fin _ => Dbl.inf s
  | Dbl.inf s, Dbl.inf t => if s = t then Dbl.inf s else Dbl.nan
  | Dbl.nan, _ => Dbl.nan
  | _, Dbl.nan => Dbl.nan

/-- Quotient of two `double`s; a zero divisor is `+0.0` (the only zero divisor
in this program is the converted `int` 0), so `0.0 / 0` is NaN and a non-zero
value over zero is an infinity of the dividend's sign. -/
def Dbl.div : Dbl → Dbl → Dbl
  | Dbl.fin x, Dbl.fin y =>
    if y = 0 then (if x = 0 then Dbl.nan else Dbl.inf (decide (x < 0))) else Dbl.ofRat (x / y)
  | Dbl.fin _, Dbl.inf _ => Dbl.fin 0
  | Dbl.inf s, Dbl.fin y => Dbl.inf (xor s (decide (y < 0)))
  | Dbl.inf _, Dbl.inf _ => Dbl.nan
  | Dbl.nan, _ => Dbl.nan
  | _, Dbl.nan => Dbl.nan

/-- The comparison `<` on `double`s: false as soon as one side is NaN. -/
def Dbl.lt : Dbl → Dbl → Bool
  | Dbl.fin x, Dbl.fin y => decide (x < y)
  | Dbl.fin _, Dbl.inf s => !s
  | Dbl.inf s, Dbl.fin _ => s
  | Dbl.inf s, Dbl.inf t => s && !t
  | Dbl.nan, _ => false
  | _, Dbl.nan => false

/-- The rational value of a finite `double` (0 for NaN and the infinities). -/
def Dbl.toRat : Dbl → ℚ
  | Dbl.fin q => q
  | _ => 0

/-! ## Nearest-match index -/

/-- The conversion `(unsigned char)c` of a `char` value. -/
def toUChar (c : Int) : Int := c % 256

/-- Specification side, not taken from the code: the value in `0..255` of a
byte held as the `char` value `c` (`-128..127`) when it is read as unsigned.
The bytes from 128 up are the negative `char` values; they read as `c + 256`. -/
def unsignedByte (c : Int) : Int := if c < 0 then c + 256 else c

/-- The `int` value `diff * diff` of iteration `i` of `calculate_mse`, with
`diff = (unsigned char)image1[i] - (unsigned char)image2[i]`. -/
def sqDiff (mem : Nat → Int) (image1 image2 : Nat) (i : Nat) : Int :=
  (toUChar (mem (image1 + i)) - toUChar (mem (image2 + i))) *
    (toUChar (mem (image1 + i)) - toUChar (mem (image2 + i)))

/-- The function `calculate_mse` (`server.c` lines 40-47): accumulate the
squared byte differences for `i = 0 .. size - 1` in a `double` starting at
`0.0`, then divide by `size`. -/
def calculate_mse (mem : Nat → Int) (image1 image2 : Nat) (size : Int) : Dbl :=
  Dbl.div
    ((List.range size.toNat).foldl
      (fun mse i => Dbl.add mse (Dbl.ofInt (sqDiff mem image1 image2 i))) (Dbl.fin 0))
    (Dbl.ofInt size)

/-- Modelled from the spec: the declaration of `database_entry_t` lives in
`include/server.h`, which is not part of the sources; the three fields are the
ones `loadDatabase` and `image_match` use (name, size, owned byte buffer). -/
structure database_entry_t where
  file_name : String
  file_size : Int
  buffer : Nat
deriving DecidableEq

/-- The value `image_match` starts from and returns when nothing matched:
empty `file_name`, `file_size` 0, `NULL` buffer. -/
def no_match : database_entry_t := { file_name := "", file_size := 0, buffer := 0 }

/-- Body of the loop of `image_match` for one entry, on the pair
(`min_mse`, `best_match`). -/
def image_match_step (mem : Nat → Int) (input_image : Nat) (size : Int)
    (acc : Dbl × database_entry_t) (db_entry : database_entry_t) : Dbl × database_entry_t :=
  if db_entry.file_size = size then
    if Dbl.lt (calculate_mse mem input_image db_entry.buffer size) acc.1 then
      (calculate_mse mem input_image db_entry.buffer size, db_entry)
    else acc
  else acc

/-- The function `image_match` (`server.c` lines 58-83); `database` is the
list of the first `database_count` entries of the global array. -/
def image_match (mem : Nat → Int) (database : List database_entry_t) (input_image : Nat)
    (size : Int) : database_entry_t :=
  (database.foldl (image_match_step mem input_image size) (Dbl.fin DBL_MAX, no_match)).2

/-! ## Worker -/

/-- Externally visible actions of a worker after it has dequeued a request. -/
inductive Effect where
  | send_file_to_client (fd : Int) (buffer : Nat) (size : Int) : Effect
  | printf_logging (request_num thread_id_num : Int) : Effect
  | log_record (to_stdout : Bool) (level threadId requestNumber : Int) (file_name : String)
      (file_size : Int) (mse : Dbl) : Effect
  | printf_logged : Effect
  | close (fd : Int) : Effect
  | free (buffer : Nat) : Effect
deriving DecidableEq

/-- The two progress lines `worker` prints on `stdout` around the log record. -/
def Effect.isDiagnostic : Effect → Bool
  | Effect.printf_logging _ _ => true
  | Effect.printf_logged => true
  | _ => false

/-- The sequence number a log record carries. -/
def Effect.requestNumber : Effect → Option Int
  | Effect.log_record _ _ _ requestNumber _ _ _ => some requestNumber
  | _ => none

/-- The function `LogPrettyPrint` (`server.c` lines 92-95): one formatted line
`[level][threadId][requestNumber][file_name][file_size bytes][mse MSE]` on
`to_write`, or on `stdout` when `to_write` is `NULL`. -/
def LogPrettyPrint (to_write : Nat) (level threadId requestNumber : Int) (file_name : String)
    (file_size : Int) (mse : Dbl) : Effect :=
  Effect.log_record (decide (to_write = 0)) level threadId requestNumber file_name file_size mse

/-- One iteration of `worker` after the dequeue (`server.c` lines 225-241):
the effects in program order and the new value of `request_num`.  The local
`mse` is set to `0.0` and handed to `LogPrettyPrint` as it is. -/
def worker_serve (mem : Nat → Int) (database : List database_entry_t) (logfile : Nat)
    (thread_id_num request_num : Int) (req : request_t) : List Effect × Int :=
  let mse : Dbl := Dbl.fin 0
  let best_match : database_entry_t := image_match mem database req.buffer req.file_size
  if best_match.buffer ≠ 0 then
    ([Effect.send_file_to_client req.file_descriptor best_match.buffer best_match.file_size,
      Effect.printf_logging request_num thread_id_num,
      LogPrettyPrint logfile 0 thread_id_num (request_num + 1) best_match.file_name
        best_match.file_size mse,
      Effect.printf_logged,
      Effect.close req.file_descriptor,
      Effect.free req.buffer],
     request_num + 1)
  else ([Effect.close req.file_descriptor, Effect.free req.buffer], request_num)

/-- The loop of `worker` over the requests it dequeues, in order, starting
with `request_num`: all effects in program order. -/
def worker (mem : Nat → Int) (database : List database_entry_t) (logfile : Nat)
    (thread_id_num : Int) : Int → List request_t → List Effect
  | _, [] => []
  | request_num, req :: reqs =>
    (worker_serve mem database logfile thread_id_num request_num req).1 ++
      worker mem database logfile thread_id_num
        (worker_serve mem database logfile thread_id_num request_num req).2 reqs

/-! # Theorems -/

/-! ### Step lemmas -/

theorem dispatch_done_iff (queue_len : Int) (s s1 : QueueState) (fd : Int) (buffer : Nat)
    (file_size : Int) :
    dispatch queue_len s fd buffer file_size = Outcome.done s1 ↔
      (s.queue_count ≠ queue_len ∧ 0 ≤ s.add_index ∧ s.add_index < QUEUE_SLOTS ∧
        queue_len ≠ 0 ∧ s.queue_count ≠ INT_MAX ∧
        s1 = { request_queue := fun i =>
                 if i = s.add_index then ⟨fd, buffer, file_size⟩ else s.request_queue i
               queue_count := s.queue_count + 1
               add_index := (s.add_index + 1).tmod queue_len
               remove_index := s.remove_index }) := by
  unfold dispatch
  split_ifs with h1 h2 h3 h4
  · simp [h1]
  · constructor
    · intro h; cases h
    · rintro ⟨-, ha, hb, -⟩; omega
  · simp [h3]
  · simp [h4]
  · constructor
    · intro h
      injection h with h
      refine ⟨h1, by omega, by omega, h3, h4, h.symm⟩
    · rintro ⟨-, -, -, -, -, h⟩; rw [h]

theorem worker_dequeue_done_iff (queue_len : Int) (s s1 : QueueState) (r : request_t) :
    worker_dequeue queue_len s = Outcome.done (s1, r) ↔
      (s.queue_count ≠ 0 ∧ 0 ≤ s.remove_index ∧ s.remove_index < QUEUE_SLOTS ∧
        queue_len ≠ 0 ∧ s.queue_count ≠ INT_MIN ∧
        s1 = { request_queue := s.request_queue
               queue_count := s.queue_count - 1
               add_index := s.add_index
               remove_index := (s.remove_index + 1).tmod queue_len } ∧
        r = s.request_queue s.remove_index) := by
  unfold worker_dequeue
  split_ifs with h1 h2 h3 h4
  · simp [h1]
  · constructor
    · intro h; cases h
    · rintro ⟨-, ha, hb, -⟩; omega
  · simp [h3]
  · simp [h4]
  · constructor
    · intro h
      injection h with h
      injection h with ha hb
      refine ⟨h1, by omega, by omega, h3, h4, ha.symm, hb.symm⟩
    · rintro ⟨-, -, -, -, -, h, hr⟩; rw [h, hr]

/-! ### Ring arithmetic -/

theorem succ_tmod_eq_emod {a n : Int} (ha : 0 ≤ a) (hn : 0 < n) :
    (a + 1).tmod n = (a + 1) % n :=
  Int.tmod_eq_emod (by omega) (by omega)

theorem ring_offsets_distinct {r n k c : Int} (hk : 0 ≤ k) (hkc : k < c) (hc : c < n) :
    (r + k) % n ≠ (r + c) % n := by
  intro h
  have h1 : (r + c - (r + k)) % n = 0 := by
    rw [Int.sub_emod, h]; simp
  have h2 : n ∣ c - k := by
    have : r + c - (r + k) = c - k := by ring
    rw [this] at h1
    exact Int.dvd_of_emod_eq_zero h1
  have h3 := Int.le_of_dvd (by omega) h2
  omega

/-! ### Invariant -/

theorem ringInv_init {queue_len : Int} (h : 1 ≤ queue_len) : RingInv queue_len QueueState.init := by
  constructor <;> simp [QueueState.init] <;> omega

theorem ringInv_dispatch {queue_len : Int} {s s1 : QueueState} {fd : Int} {buffer : Nat}
    {file_size : Int} (hinv : RingInv queue_len s)
    (h : dispatch queue_len s fd buffer file_size = Outcome.done s1) : RingInv queue_len s1 := by
  rw [dispatch_done_iff] at h
  obtain ⟨hne, -, -, -, -, rfl⟩ := h
  have hn : 0 < queue_len := by
    have := hinv.add_nonneg; have := hinv.add_lt; omega
  have ha := hinv.add_nonneg
  constructor
  · show 0 ≤ s.queue_count + 1
    have := hinv.count_nonneg; omega
  · show s.queue_count + 1 ≤ queue_len
    have := hinv.count_le; omega
  · show 0 ≤ (s.add_index + 1).tmod queue_len
    rw [succ_tmod_eq_emod ha hn]; exact Int.emod_nonneg _ (by omega)
  · show (s.add_index + 1).tmod queue_len < queue_len
    rw [succ_tmod_eq_emod ha hn]; exact Int.emod_lt_of_pos _ hn
  · exact hinv.remove_nonneg
  · exact hinv.remove_lt
  · show (s.add_index + 1).tmod queue_len = (s.remove_index + (s.queue_count + 1)) % queue_len
    rw [succ_tmod_eq_emod ha hn, hinv.add_eq, Int.emod_add_emod, Int.add_assoc]

theorem ringInv_worker_dequeue {queue_len : Int} {s s1 : QueueState} {r : request_t}
    (hinv : RingInv queue_len s)
    (h : worker_dequeue queue_len s = Outcome.done (s1, r)) : RingInv queue_len s1 := by
  rw [worker_dequeue_done_iff] at h
  obtain ⟨hne, -, -, -, -, rfl, -⟩ := h
  have hn : 0 < queue_len := by
    have := hinv.add_nonneg; have := hinv.add_lt; omega
  have ha := hinv.remove_nonneg
  constructor
  · show 0 ≤ s.queue_count - 1
    have := hinv.count_nonneg; omega
  · show s.queue_count - 1 ≤ queue_len
    have := hinv.count_le; omega
  · exact hinv.add_nonneg
  · exact hinv.add_lt
  · show 0 ≤ (s.remove_index + 1).tmod queue_len
    rw [succ_tmod_eq_emod ha hn]; exact Int.emod_nonneg _ (by omega)
  · show (s.remove_index + 1).tmod queue_len < queue_len
    rw [succ_tmod_eq_emod ha hn]; exact Int.emod_lt_of_pos _ hn
  · show s.add_index = ((s.remove_index + 1).tmod queue_len + (s.queue_count - 1)) % queue_len
    rw [succ_tmod_eq_emod ha hn, Int.emod_add_emod, hinv.add_eq]
    congr 1; ring

/-- General invariant of the reachable states for any capacity `queue_len ≥ 0`. -/
theorem reachable_invariant {queue_len : Int} (hlen : 0 ≤ queue_len) {s : QueueState}
    (hs : Reachable queue_len s) :
    0 ≤ s.queue_count ∧ s.queue_count ≤ queue_len ∧
      0 ≤ s.add_index ∧ s.add_index < max queue_len 1 ∧
      0 ≤ s.remove_index ∧ s.remove_index < max queue_len 1 ∧
      (1 ≤ queue_len → RingInv queue_len s) := by
  induction hs with
  | init =>
    refine ⟨by simp [QueueState.init], by simpa [QueueState.init] using hlen,
      by simp [QueueState.init], by simp [QueueState.init],
      by simp [QueueState.init], by simp [QueueState.init], fun h => ringInv_init h⟩
  | enqueue fd buffer file_size _ hstep ih =>
    obtain ⟨h1, h2, h3, h4, h5, h6, h7⟩ := ih
    have hd := (dispatch_done_iff _ _ _ _ _ _).1 hstep
    have hpos : 1 ≤ queue_len := by omega
    have hinv := ringInv_dispatch (h7 hpos) hstep
    have hmax : max queue_len 1 = queue_len := max_eq_left hpos
    rw [hmax]
    exact ⟨hinv.count_nonneg, hinv.count_le, hinv.add_nonneg, hinv.add_lt,
      hinv.remove_nonneg, hinv.remove_lt, fun _ => hinv⟩
  | dequeue _ hstep ih =>
    obtain ⟨h1, h2, h3, h4, h5, h6, h7⟩ := ih
    have hd := (worker_dequeue_done_iff _ _ _ _).1 hstep
    have hpos : 1 ≤ queue_len := by omega
    have hinv := ringInv_worker_dequeue (h7 hpos) hstep
    have hmax : max queue_len 1 = queue_len := max_eq_left hpos
    rw [hmax]
    exact ⟨hinv.count_nonneg, hinv.count_le, hinv.add_nonneg, hinv.add_lt,
      hinv.remove_nonneg, hinv.remove_lt, fun _ => hinv⟩

/-! ### Contents of the ring -/

theorem pending_length (queue_len : Int) (s : QueueState) :
    (pending queue_len s).length = s.queue_count.toNat := by
  simp [pending]

theorem pending_dispatch {queue_len : Int} {s s1 : QueueState} {fd : Int} {buffer : Nat}
    {file_size : Int} (hinv : RingInv queue_len s)
    (h : dispatch queue_len s fd buffer file_size = Outcome.done s1) :
    pending queue_len s1 = pending queue_len s ++ [⟨fd, buffer, file_size⟩] := by
  rw [dispatch_done_iff] at h
  obtain ⟨hne, -, -, -, -, rfl⟩ := h
  have hc := hinv.count_nonneg
  have hle := hinv.count_le
  have hnat : (s.queue_count + 1).toNat = s.queue_count.toNat + 1 := by omega
  have hcast : ((s.queue_count.toNat : Nat) : Int) = s.queue_count := Int.toNat_of_nonneg hc
  simp only [pending, hnat, List.range_succ, List.map_append, List.map_cons, List.map_nil]
  congr 1
  · apply List.map_congr_left
    intro k hk
    have hk1 : k < s.queue_count.toNat := List.mem_range.1 hk
    have hne2 : (s.remove_index + (k : Int)) % queue_len ≠ s.add_index := by
      rw [hinv.add_eq]
      exact ring_offsets_distinct (by omega) (by omega) (by omega)
    simp [hne2]
  · simp [hcast, hinv.add_eq]

theorem pending_worker_dequeue {queue_len : Int} {s s1 : QueueState} {r : request_t}
    (hinv : RingInv queue_len s)
    (h : worker_dequeue queue_len s = Outcome.done (s1, r)) :
    pending queue_len s = r :: pending queue_len s1 := by
  rw [worker_dequeue_done_iff] at h
  obtain ⟨hne, -, -, -, -, rfl, rfl⟩ := h
  have hc := hinv.count_nonneg
  have hr := hinv.remove_nonneg
  have hn : 0 < queue_len := by
    have := hinv.remove_lt; omega
  obtain ⟨m, hm⟩ : ∃ m : Nat, s.queue_count.toNat = m + 1 := ⟨s.queue_count.toNat - 1, by omega⟩
  have hm1 : (s.queue_count - 1).toNat = m := by omega
  simp only [pending, hm, hm1, List.range_succ_eq_map, List.map_cons, List.map_map]
  congr 1
  · simp [Int.emod_eq_of_lt hr hinv.remove_lt]
  · apply List.map_congr_left
    intro k _
    simp only [Function.comp]
    rw [succ_tmod_eq_emod hr hn, Int.emod_add_emod]
    congr 2
    push_cast
    ring

/-- Generalised FIFO statement: from any state satisfying the ring invariant, a
schedule never runs into undefined behaviour, and when all its steps complete,
what was pending followed by what is enqueued equals what is delivered followed
by what is pending at the end. -/
theorem run_fifo {queue_len : Int} (h100 : queue_len ≤ 100) :
    ∀ (ops : List QueueOp) (s : QueueState), RingInv queue_len s →
      run queue_len s ops ≠ Outcome.undefined ∧
      ∀ s2 out, run queue_len s ops = Outcome.done (s2, out) →
        RingInv queue_len s2 ∧
          pending queue_len s ++ enqueued ops = out ++ pending queue_len s2 := by
  intro ops
  induction ops with
  | nil =>
    intro s hinv
    refine ⟨by simp [run], ?_⟩
    intro s2 out h
    simp only [run, Outcome.done.injEq, Prod.mk.injEq] at h
    obtain ⟨rfl, rfl⟩ := h
    exact ⟨hinv, by simp [enqueued]⟩
  | cons op ops ih =>
    intro s hinv
    have hn : 0 < queue_len := by
      have := hinv.remove_lt; have := hinv.remove_nonneg; omega
    cases op with
    | enqueue fd buffer file_size =>
      cases hd : dispatch queue_len s fd buffer file_size with
      | blocked => simp [run, hd]
      | undefined =>
        exfalso
        unfold dispatch at hd
        have := hinv.add_nonneg; have := hinv.add_lt; have := hinv.count_le
        simp only [QUEUE_SLOTS, INT_MAX] at hd
        split_ifs at hd <;> omega
      | done s1 =>
        have hinv1 := ringInv_dispatch hinv hd
        obtain ⟨hu, hrun⟩ := ih s1 hinv1
        refine ⟨by simpa [run, hd] using hu, ?_⟩
        intro s2 out h
        simp only [run, hd] at h
        obtain ⟨hinv2, heq⟩ := hrun s2 out h
        refine ⟨hinv2, ?_⟩
        rw [← heq, pending_dispatch hinv hd]
        simp [enqueued]
    | dequeue =>
      cases hd : worker_dequeue queue_len s with
      | blocked => simp [run, hd]
      | undefined =>
        exfalso
        unfold worker_dequeue at hd
        have := hinv.remove_nonneg; have := hinv.remove_lt; have := hinv.count_nonneg
        simp only [QUEUE_SLOTS, INT_MIN] at hd
        split_ifs at hd <;> omega
      | done p =>
        obtain ⟨s1, r⟩ := p
        have hinv1 := ringInv_worker_dequeue hinv hd
        obtain ⟨hu, hrun⟩ := ih s1 hinv1
        cases hr : run queue_len s1 ops with
        | blocked => simp [run, hd, hr]
        | undefined => exact absurd hr hu
        | done p2 =>
          obtain ⟨s3, out3⟩ := p2
          refine ⟨by simp [run, hd, hr], ?_⟩
          intro s2 out h
          simp only [run, hd, hr, Outcome.done.injEq, Prod.mk.injEq] at h
          obtain ⟨rfl, rfl⟩ := h
          obtain ⟨hinv2, heq⟩ := hrun s3 out3 hr
          refine ⟨hinv2, ?_⟩
          rw [pending_worker_dequeue hinv hd]
          simp [enqueued, heq]

/-! ### Queue claims -/

/-- C1: with a capacity `queue_len` between 1 and 100, every schedule of
critical sections started from the empty queue stays free of undefined
behaviour, and whenever all its steps are enabled the requests returned by the
dequeues form a prefix of the requests enqueued, the remainder being exactly
the `queue_count` requests stored from `remove_index` onwards in order: nothing
is delivered twice, lost or reordered. -/
theorem fifo_delivery (queue_len : Int) (h1 : 1 ≤ queue_len) (h100 : queue_len ≤ 100)
    (ops : List QueueOp) :
    run queue_len QueueState.init ops ≠ Outcome.undefined ∧
    ∀ s out, run queue_len QueueState.init ops = Outcome.done (s, out) →
      out <+: enqueued ops ∧
      enqueued ops = out ++ pending queue_len s ∧
      ((pending queue_len s).length : Int) = s.queue_count := by
  obtain ⟨hu, hrun⟩ := run_fifo h100 ops QueueState.init (ringInv_init h1)
  refine ⟨hu, ?_⟩
  intro s out h
  obtain ⟨hinv, heq⟩ := hrun s out h
  have hnil : pending queue_len QueueState.init = [] := by simp [pending, QueueState.init]
  rw [hnil, List.nil_append] at heq
  refine ⟨⟨pending queue_len s, heq.symm⟩, heq, ?_⟩
  rw [pending_length]
  exact Int.toNat_of_nonneg hinv.count_nonneg

theorem fifo_delivery_witness :
    ∃ s out,
      run 2 QueueState.init
        [QueueOp.enqueue 4 1000 3, QueueOp.enqueue 5 2000 7, QueueOp.dequeue,
          QueueOp.enqueue 6 3000 9, QueueOp.dequeue] = Outcome.done (s, out) ∧
      out = [⟨4, 1000, 3⟩, ⟨5, 2000, 7⟩] ∧
      pending 2 s = [⟨6, 3000, 9⟩] ∧
      out <+: enqueued
        [QueueOp.enqueue 4 1000 3, QueueOp.enqueue 5 2000 7, QueueOp.dequeue,
          QueueOp.enqueue 6 3000 9, QueueOp.dequeue] :=
  ⟨_, _, rfl, rfl, rfl,
    ((fifo_delivery 2 (by decide) (by decide)
      [QueueOp.enqueue 4 1000 3, QueueOp.enqueue 5 2000 7, QueueOp.dequeue,
        QueueOp.enqueue 6 3000 9, QueueOp.dequeue]).2 _ _ rfl).1⟩

theorem reachable_of_run (queue_len : Int) :
    ∀ (ops : List QueueOp) (s0 s : QueueState) (out : List request_t),
      Reachable queue_len s0 → run queue_len s0 ops = Outcome.done (s, out) →
      Reachable queue_len s := by
  intro ops
  induction ops with
  | nil =>
    intro s0 s out h0 h
    simp only [run, Outcome.done.injEq, Prod.mk.injEq] at h
    rw [← h.1]; exact h0
  | cons op ops ih =>
    intro s0 s out h0 h
    cases op with
    | enqueue fd buffer file_size =>
      cases hd : dispatch queue_len s0 fd buffer file_size with
      | blocked => simp [run, hd] at h
      | undefined => simp [run, hd] at h
      | done s1 =>
        simp only [run, hd] at h
        exact ih s1 s out (Reachable.enqueue fd buffer file_size h0 hd) h
    | dequeue =>
      cases hd : worker_dequeue queue_len s0 with
      | blocked => simp [run, hd] at h
      | undefined => simp [run, hd] at h
      | done p =>
        obtain ⟨s1, r⟩ := p
        cases hr : run queue_len s1 ops with
        | blocked => simp [run, hd, hr] at h
        | undefined => simp [run, hd, hr] at h
        | done p2 =>
          obtain ⟨s2, out2⟩ := p2
          simp only [run, hd, hr, Outcome.done.injEq, Prod.mk.injEq] at h
          rw [← h.1]
          exact ih s1 s2 out2 (Reachable.dequeue h0 hd) hr

/-- With capacity 101, one hundred enqueues are all enabled and leave
`queue_count = 100` and `add_index = 100`, one past the last slot. -/
theorem hundred_enqueues :
    ∃ s, run 101 QueueState.init (List.replicate 100 (QueueOp.enqueue 4 1000 3)) =
        Outcome.done (s, []) ∧
      s.queue_count = 100 ∧ s.add_index = 100 ∧ s.remove_index = 0 :=
  ⟨_, rfl, rfl, rfl, rfl⟩

/-- Within the 100-slot array, a critical section started in a reachable state
never runs into undefined behaviour. -/
theorem reachable_step_defined {queue_len : Int} (h0 : 0 ≤ queue_len) (h100 : queue_len ≤ 100)
    {s : QueueState} (hs : Reachable queue_len s) :
    (∀ fd buffer file_size, dispatch queue_len s fd buffer file_size ≠ Outcome.undefined) ∧
      worker_dequeue queue_len s ≠ Outcome.undefined := by
  obtain ⟨c0, c1, a0, a1, r0, r1, -⟩ := reachable_invariant h0 hs
  have hmax : max queue_len 1 ≤ 100 := max_le h100 (by decide)
  constructor
  · intro fd buffer file_size
    unfold dispatch
    simp only [QUEUE_SLOTS, INT_MAX]
    split_ifs <;> first | omega | simp
  · unfold worker_dequeue
    simp only [QUEUE_SLOTS, INT_MIN]
    split_ifs <;> first | omega | simp

/-- Within the 100-slot array, a critical section started in a reachable state
completes as soon as its guard allows it, and moves `queue_count` by one. -/
theorem reachable_step_completes {queue_len : Int} (h0 : 0 ≤ queue_len)
    (h100 : queue_len ≤ 100) {s : QueueState} (hs : Reachable queue_len s)
    (fd : Int) (buffer : Nat) (file_size : Int) :
    (s.queue_count ≠ queue_len →
      ∃ s1, dispatch queue_len s fd buffer file_size = Outcome.done s1 ∧
        s1.queue_count = s.queue_count + 1) ∧
    (s.queue_count ≠ 0 →
      ∃ s1 r, worker_dequeue queue_len s = Outcome.done (s1, r) ∧
        s1.queue_count = s.queue_count - 1) := by
  obtain ⟨c0, c1, a0, a1, r0, r1, -⟩ := reachable_invariant h0 hs
  have hmax : max queue_len 1 ≤ 100 := max_le h100 (by decide)
  constructor
  · intro hne
    refine ⟨_, (dispatch_done_iff _ _ _ _ _ _).2 ⟨hne, a0, ?_, ?_, ?_, rfl⟩, rfl⟩
    · simp only [QUEUE_SLOTS]; omega
    · omega
    · simp only [INT_MAX]; omega
  · intro hne
    refine ⟨_, _, (worker_dequeue_done_iff _ _ _ _).2 ⟨hne, r0, ?_, ?_, ?_, rfl, rfl⟩, rfl⟩
    · simp only [QUEUE_SLOTS]; omega
    · omega
    · simp only [INT_MIN]; omega

/-- Within the 100-slot array every fill level up to the capacity is reached. -/
theorem fill_level_reachable {queue_len : Int} (h0 : 0 ≤ queue_len) (h100 : queue_len ≤ 100) :
    ∀ n : Nat, (n : Int) ≤ queue_len → ∃ s, Reachable queue_len s ∧ s.queue_count = n := by
  intro n
  induction n with
  | zero => intro _; exact ⟨QueueState.init, Reachable.init, rfl⟩
  | succ n ih =>
    intro hn
    obtain ⟨s, hs, hc⟩ := ih (by push_cast at hn; omega)
    obtain ⟨s1, hd, hc1⟩ :=
      (reachable_step_completes h0 h100 hs 0 0 0).1 (by push_cast at hn; omega)
    exact ⟨s1, Reachable.enqueue 0 0 0 hs hd, by rw [hc1, hc]; push_cast; ring⟩

/-- C3 (as stated, refuted): with capacity 101, one hundred enqueues are all
enabled and bring `queue_count` to 100; the next enqueue is enabled as well
(`100 != 101`) but stores into `request_queue[100]`, outside the array, so the
schedule of 101 enabled enqueues does not end in a state satisfying
`0 ≤ queue_count ≤ queue_len`.  Hence it is not true that for every capacity
`queue_len ≥ 0` every schedule of enabled steps ends in such a state. -/
theorem queue_count_capacity_counterexample :
    (∃ s, run 101 QueueState.init (List.replicate 100 (QueueOp.enqueue 4 1000 3)) =
        Outcome.done (s, []) ∧
      s.queue_count = 100 ∧
      dispatch 101 s 4 1000 3 ≠ Outcome.blocked ∧
      dispatch 101 s 4 1000 3 = Outcome.undefined) ∧
    run 101 QueueState.init (List.replicate 101 (QueueOp.enqueue 4 1000 3)) =
      Outcome.undefined ∧
    ¬ ∀ (queue_len : Int), 0 ≤ queue_len → ∀ ops : List QueueOp,
        run queue_len QueueState.init ops ≠ Outcome.blocked →
        ∃ s out, run queue_len QueueState.init ops = Outcome.done (s, out) ∧
          0 ≤ s.queue_count ∧ s.queue_count ≤ queue_len := by
  have hrun : run 101 QueueState.init (List.replicate 101 (QueueOp.enqueue 4 1000 3)) =
      Outcome.undefined := rfl
  refine ⟨?_, hrun, ?_⟩
  · obtain ⟨s, h, hc, ha, -⟩ := hundred_enqueues
    have hu : dispatch 101 s 4 1000 3 = Outcome.undefined := by
      simp [dispatch, hc, ha, QUEUE_SLOTS]
    exact ⟨s, h, hc, by rw [hu]; exact fun h => Outcome.noConfusion h, hu⟩
  · intro hall
    obtain ⟨s, out, h, -⟩ := hall 101 (by decide)
      (List.replicate 101 (QueueOp.enqueue 4 1000 3))
      (by rw [hrun]; exact fun h => Outcome.noConfusion h)
    rw [hrun] at h
    exact Outcome.noConfusion h

/-- C3 (amended): for every capacity `0 ≤ queue_len ≤ 100`, every state
reachable from `queue_count = 0` by enabled enqueue and dequeue critical
sections satisfies `0 ≤ queue_count ≤ queue_len`; in that range no critical
section runs into undefined behaviour, so every enabled step does lead to a
state, and the bound is attained: a state with `queue_count = queue_len` is
reachable. -/
theorem queue_count_within_capacity (queue_len : Int) (hlen : 0 ≤ queue_len)
    (h100 : queue_len ≤ 100) (s : QueueState) (hs : Reachable queue_len s) :
    (0 ≤ s.queue_count ∧ s.queue_count ≤ queue_len) ∧
    (∀ fd buffer file_size, dispatch queue_len s fd buffer file_size ≠ Outcome.undefined) ∧
    worker_dequeue queue_len s ≠ Outcome.undefined ∧
    (∃ s1, Reachable queue_len s1 ∧ s1.queue_count = queue_len) := by
  refine ⟨⟨(reachable_invariant hlen hs).1, (reachable_invariant hlen hs).2.1⟩,
    (reachable_step_defined hlen h100 hs).1, (reachable_step_defined hlen h100 hs).2, ?_⟩
  obtain ⟨s1, h1, hc⟩ := fill_level_reachable hlen h100 queue_len.toNat
    (by rw [Int.toNat_of_nonneg hlen])
  exact ⟨s1, h1, by rw [hc, Int.toNat_of_nonneg hlen]⟩

theorem queue_count_within_capacity_witness :
    ∃ s, dispatch 1 QueueState.init 4 1000 3 = Outcome.done s ∧ s.queue_count = 1 ∧
      (0 ≤ s.queue_count ∧ s.queue_count ≤ 1) ∧
      worker_dequeue 1 s ≠ Outcome.undefined :=
  ⟨_, rfl, rfl,
    (queue_count_within_capacity 1 (by decide) (by decide) _
      (Reachable.enqueue 4 1000 3 Reachable.init rfl)).1,
    (queue_count_within_capacity 1 (by decide) (by decide) _
      (Reachable.enqueue 4 1000 3 Reachable.init rfl)).2.2.1⟩

/-- With capacity `-1` the enqueue guard `queue_count == queue_len` never holds
and `add_index` stays 0, so every fill level up to `INT_MAX` is reached. -/
theorem negative_capacity_fill :
    ∀ n : Nat, (n : Int) ≤ INT_MAX →
      ∃ s, Reachable (-1) s ∧ s.queue_count = n ∧ s.add_index = 0 := by
  intro n
  induction n with
  | zero => intro _; exact ⟨QueueState.init, Reachable.init, rfl, rfl⟩
  | succ n ih =>
    intro hn
    unfold INT_MAX at hn ih
    obtain ⟨s, hs, hc, ha⟩ := ih (by push_cast at hn; omega)
    have hd : dispatch (-1) s 0 0 0 = Outcome.done
        { request_queue := fun i => if i = s.add_index then ⟨0, 0, 0⟩ else s.request_queue i
          queue_count := s.queue_count + 1
          add_index := (s.add_index + 1).tmod (-1)
          remove_index := s.remove_index } := by
      refine (dispatch_done_iff _ _ _ _ _ _).2 ⟨?_, ?_, ?_, by decide, ?_, rfl⟩
      · omega
      · omega
      · simp only [QUEUE_SLOTS]; omega
      · simp only [INT_MAX]; push_cast at hn; omega
    refine ⟨_, Reachable.enqueue 0 0 0 hs hd, ?_, ?_⟩
    · show s.queue_count + 1 = ((n + 1 : Nat) : Int)
      rw [hc]; push_cast; ring
    · show (s.add_index + 1).tmod (-1) = 0
      rw [ha]; decide

/-- C8 (as stated, refuted): with capacity 101 the state after one hundred
enqueues is reachable and has `queue_count = 100`, so the enqueue step is not
blocked; but it stores into `request_queue[100]`, outside the array, and does
not complete with `queue_count` raised by 1.  With capacity `-1` the enqueue
step is never blocked, and in the reachable state with `queue_count = INT_MAX`
the increment overflows, so the step does not complete either. -/
theorem blocking_capacity_counterexample :
    (∃ s, Reachable 101 s ∧ s.queue_count = 100 ∧ s.queue_count ≠ 101 ∧
      dispatch 101 s 4 1000 3 ≠ Outcome.blocked ∧
      ¬ ∃ s1, dispatch 101 s 4 1000 3 = Outcome.done s1 ∧
        s1.queue_count = s.queue_count + 1) ∧
    (∃ s, Reachable (-1) s ∧ s.queue_count = INT_MAX ∧ s.queue_count ≠ -1 ∧
      dispatch (-1) s 4 1000 3 ≠ Outcome.blocked ∧
      ¬ ∃ s1, dispatch (-1) s 4 1000 3 = Outcome.done s1 ∧
        s1.queue_count = s.queue_count + 1) := by
  constructor
  · obtain ⟨s, h, hc, ha, -⟩ := hundred_enqueues
    have hu : dispatch 101 s 4 1000 3 = Outcome.undefined := by
      simp [dispatch, hc, ha, QUEUE_SLOTS]
    refine ⟨s, reachable_of_run 101 _ _ _ _ Reachable.init h, hc, by rw [hc]; decide, ?_, ?_⟩
    · rw [hu]; exact fun h => Outcome.noConfusion h
    · rintro ⟨s1, h1, -⟩
      rw [hu] at h1
      exact Outcome.noConfusion h1
  · obtain ⟨s, hs, hc, ha⟩ := negative_capacity_fill 2147483647 (by decide)
    have hc1 : s.queue_count = INT_MAX := by rw [hc]; rfl
    have hu : dispatch (-1) s 4 1000 3 = Outcome.undefined := by
      simp [dispatch, hc1, ha, QUEUE_SLOTS, INT_MAX]
    refine ⟨s, hs, hc1, by rw [hc1]; decide, ?_, ?_⟩
    · rw [hu]; exact fun h => Outcome.noConfusion h
    · rintro ⟨s1, h1, -⟩
      rw [hu] at h1
      exact Outcome.noConfusion h1

/-- C8 (amended): for every capacity `0 ≤ queue_len ≤ 100`, in every reachable
state the enqueue step of `dispatch` waits exactly when
`queue_count == queue_len` and the dequeue step of `worker` waits exactly when
`queue_count == 0` (a waiting step yields no new state); when it does not wait,
the enqueue completes and raises `queue_count` by exactly 1, and the dequeue
completes and lowers it by exactly 1. -/
theorem blocking_and_count_steps (queue_len : Int) (h0 : 0 ≤ queue_len)
    (h100 : queue_len ≤ 100) (s : QueueState)
    (hs : Reachable queue_len s) (fd : Int) (buffer : Nat) (file_size : Int) :
    (dispatch queue_len s fd buffer file_size = Outcome.blocked ↔ s.queue_count = queue_len) ∧
    (worker_dequeue queue_len s = Outcome.blocked ↔ s.queue_count = 0) ∧
    (s.queue_count ≠ queue_len →
      ∃ s1, dispatch queue_len s fd buffer file_size = Outcome.done s1 ∧
        s1.queue_count = s.queue_count + 1) ∧
    (s.queue_count ≠ 0 →
      ∃ s1 r, worker_dequeue queue_len s = Outcome.done (s1, r) ∧
        s1.queue_count = s.queue_count - 1) := by
  refine ⟨?_, ?_, (reachable_step_completes h0 h100 hs fd buffer file_size).1,
    (reachable_step_completes h0 h100 hs fd buffer file_size).2⟩
  · unfold dispatch
    split_ifs with h1 <;> simp [h1]
  · unfold worker_dequeue
    split_ifs with h1 <;> simp [h1]

theorem blocking_and_count_steps_witness :
    (dispatch 1 QueueState.init 4 1000 3 = Outcome.blocked ↔
      QueueState.init.queue_count = 1) ∧
    (worker_dequeue 1 QueueState.init = Outcome.blocked ↔ QueueState.init.queue_count = 0) ∧
    (∃ s1, dispatch 1 QueueState.init 4 1000 3 = Outcome.done s1 ∧
      s1.queue_count = QueueState.init.queue_count + 1) :=
  ⟨(blocking_and_count_steps 1 (by decide) (by decide) QueueState.init Reachable.init
      4 1000 3).1,
    (blocking_and_count_steps 1 (by decide) (by decide) QueueState.init Reachable.init
      4 1000 3).2.1,
    (blocking_and_count_steps 1 (by decide) (by decide) QueueState.init Reachable.init
      4 1000 3).2.2.1 (by decide)⟩

/-- C10: for every capacity `0 ≤ queue_len ≤ 100`, every reachable state has
`0 ≤ add_index < max(queue_len, 1)`, `0 ≤ remove_index < max(queue_len, 1)` and,
when `queue_len ≥ 1`, `add_index = (remove_index + queue_count) mod queue_len`;
hence both indices address one of the 100 slots, no critical section runs into
undefined behaviour (no access outside the array, no `% 0`), and with capacity
0 both operations wait forever. -/
theorem ring_indices_in_bounds (queue_len : Int) (h0 : 0 ≤ queue_len) (h100 : queue_len ≤ 100)
    (s : QueueState) (hs : Reachable queue_len s) :
    (0 ≤ s.add_index ∧ s.add_index < max queue_len 1) ∧
    (0 ≤ s.remove_index ∧ s.remove_index < max queue_len 1) ∧
    (1 ≤ queue_len → s.add_index = (s.remove_index + s.queue_count) % queue_len) ∧
    (s.add_index < QUEUE_SLOTS ∧ s.remove_index < QUEUE_SLOTS) ∧
    (∀ fd buffer file_size, dispatch queue_len s fd buffer file_size ≠ Outcome.undefined) ∧
    worker_dequeue queue_len s ≠ Outcome.undefined ∧
    (queue_len = 0 →
      (∀ fd buffer file_size, dispatch queue_len s fd buffer file_size = Outcome.blocked) ∧
      worker_dequeue queue_len s = Outcome.blocked) := by
  obtain ⟨c0, c1, a0, a1, r0, r1, hinv⟩ := reachable_invariant h0 hs
  have hmax : max queue_len 1 ≤ 100 := max_le h100 (by decide)
  refine ⟨⟨a0, a1⟩, ⟨r0, r1⟩, fun h => (hinv h).add_eq, ?_, ?_, ?_, ?_⟩
  · simp only [QUEUE_SLOTS]; omega
  · intro fd buffer file_size
    unfold dispatch
    simp only [QUEUE_SLOTS, INT_MAX]
    split_ifs <;> first | omega | simp
  · unfold worker_dequeue
    simp only [QUEUE_SLOTS, INT_MIN]
    split_ifs <;> first | omega | simp
  · intro hz
    subst hz
    have hc : s.queue_count = 0 := by omega
    refine ⟨fun fd buffer file_size => ?_, ?_⟩
    · simp [dispatch, hc]
    · simp [worker_dequeue, hc]

theorem ring_indices_in_bounds_witness :
    ∃ s, dispatch 3 QueueState.init 4 1000 3 = Outcome.done s ∧
      s.add_index = 1 ∧ s.remove_index = 0 ∧
      (s.add_index < QUEUE_SLOTS ∧ s.remove_index < QUEUE_SLOTS) ∧
      worker_dequeue 3 s ≠ Outcome.undefined :=
  ⟨_, rfl, rfl, rfl,
    (ring_indices_in_bounds 3 (by decide) (by decide) _
      (Reachable.enqueue 4 1000 3 Reachable.init rfl)).2.2.2.1,
    (ring_indices_in_bounds 3 (by decide) (by decide) _
      (Reachable.enqueue 4 1000 3 Reachable.init rfl)).2.2.2.2.2.1⟩

/-! ### Rounding -/

theorem roundTiesEven_intCast (z : ℤ) : roundTiesEven (z : ℚ) = z := by
  simp [roundTiesEven]

theorem floor_le_roundTiesEven (x : ℚ) : ⌊x⌋ ≤ roundTiesEven x := by
  unfold roundTiesEven
  split_ifs <;> omega

theorem roundTiesEven_sub_le (x : ℚ) : ((roundTiesEven x : ℤ) : ℚ) - x ≤ 1 / 2 := by
  have h1 := Int.floor_le x
  have h2 := Int.lt_floor_add_one x
  unfold roundTiesEven
  split_ifs with a b c
  · linarith
  · push_cast; linarith
  · linarith
  · push_cast; linarith

theorem ulp_pos (q : ℚ) : (0 : ℚ) < 2 ^ ulpExponent q := zpow_pos (by norm_num) _

theorem round64_zero : round64 0 = 0 := by
  simp [round64, roundTiesEven]

theorem round64_nonneg {q : ℚ} (hq : 0 ≤ q) : 0 ≤ round64 q := by
  unfold round64
  have h1 : (0 : ℚ) ≤ q / 2 ^ ulpExponent q := div_nonneg hq (ulp_pos q).le
  have h2 : (0 : ℤ) ≤ roundTiesEven (q / 2 ^ ulpExponent q) :=
    le_trans (Int.floor_nonneg.2 h1) (floor_le_roundTiesEven _)
  exact mul_nonneg (by exact_mod_cast h2) (ulp_pos q).le

theorem ulp_le_of_pos {q : ℚ} (hq : (2 : ℚ) ^ (-1074 : ℤ) ≤ q) : (2 : ℚ) ^ ulpExponent q ≤ q := by
  have hpos : 0 < q := lt_of_lt_of_le (zpow_pos (by norm_num) _) hq
  unfold ulpExponent
  rw [abs_of_pos hpos]
  rcases le_total (Int.log 2 q) (-1022) with h | h
  · rw [max_eq_right h]
    exact hq
  · rw [max_eq_left h]
    have h1 : ((2 : ℕ) : ℚ) ^ Int.log 2 q ≤ q := Int.zpow_log_le_self (by norm_num) hpos
    have h2 : (2 : ℚ) ^ (Int.log 2 q - 52) ≤ (2 : ℚ) ^ Int.log 2 q :=
      zpow_le_zpow_right₀ (by norm_num) (by omega)
    exact le_trans h2 (by exact_mod_cast h1)

theorem round64_pos {q : ℚ} (hq : (2 : ℚ) ^ (-1074 : ℤ) ≤ q) : 0 < round64 q := by
  unfold round64
  have h1 : (1 : ℚ) ≤ q / 2 ^ ulpExponent q := by
    rw [le_div_iff₀ (ulp_pos q), one_mul]
    exact ulp_le_of_pos hq
  have h2 : (1 : ℤ) ≤ roundTiesEven (q / 2 ^ ulpExponent q) :=
    le_trans (Int.le_floor.2 (by exact_mod_cast h1)) (floor_le_roundTiesEven _)
  have h3 : (0 : ℚ) < ((roundTiesEven (q / 2 ^ ulpExponent q) : ℤ) : ℚ) := by
    exact_mod_cast (by omega : (0 : ℤ) < roundTiesEven (q / 2 ^ ulpExponent q))
  exact mul_pos h3 (ulp_pos q)

theorem round64_sub_le (q : ℚ) : round64 q - q ≤ 2 ^ ulpExponent q / 2 := by
  have h := roundTiesEven_sub_le (q / 2 ^ ulpExponent q)
  unfold round64
  have h5 : ((roundTiesEven (q / 2 ^ ulpExponent q) : ℤ) : ℚ) * 2 ^ ulpExponent q ≤
      (q / 2 ^ ulpExponent q + 1 / 2) * 2 ^ ulpExponent q :=
    mul_le_mul_of_nonneg_right (by linarith) (ulp_pos q).le
  have h6 : (q / 2 ^ ulpExponent q + 1 / 2) * 2 ^ ulpExponent q =
      q + 2 ^ ulpExponent q / 2 := by
    have := (ulp_pos q).ne'
    field_simp
    ring
  linarith

theorem round64_le {q : ℚ} (hq : 0 ≤ q) : round64 q ≤ 2 * q + 1 := by
  have herr := round64_sub_le q
  rcases lt_or_le q ((2 : ℚ) ^ (-1074 : ℤ)) with hsmall | hbig
  · -- below the smallest subnormal the unit in the last place is `2 ^ (-1074)`
    have hu : (2 : ℚ) ^ ulpExponent q ≤ 1 := by
      unfold ulpExponent
      apply zpow_le_one_of_nonpos₀ (by norm_num)
      have : Int.log 2 |q| ≤ 0 := by
        rw [abs_of_nonneg hq, Int.log_of_right_le_one]
        · omega
        · have : (2 : ℚ) ^ (-1074 : ℤ) ≤ 1 := zpow_le_one_of_nonpos₀ (by norm_num) (by norm_num)
          linarith
      omega
    linarith
  · have hu := ulp_le_of_pos hbig
    linarith

theorem ulpExponent_intCast {n : ℤ} (hn : n ≠ 0) (h : |n| < 2 ^ 53) :
    ∃ j : ℕ, ulpExponent (n : ℚ) = -(j : ℤ) := by
  have habs : |(n : ℚ)| = ((n.natAbs : ℕ) : ℚ) := by
    rw [Nat.cast_natAbs, Int.cast_abs]
  have hlt : n.natAbs < 2 ^ 53 := by
    have : (n.natAbs : ℤ) < 2 ^ 53 := by rw [← Int.abs_eq_natAbs]; exact h
    exact_mod_cast this
  have hlog : Nat.log 2 n.natAbs < 53 :=
    Nat.log_lt_of_lt_pow (Int.natAbs_ne_zero.2 hn) hlt
  refine ⟨52 - Nat.log 2 n.natAbs, ?_⟩
  unfold ulpExponent
  rw [habs, Int.log_natCast]
  omega

theorem round64_intCast (n : ℤ) (h : |n| < 2 ^ 53) : round64 (n : ℚ) = n := by
  by_cases hn : n = 0
  · subst hn; simpa using round64_zero
  · obtain ⟨j, hj⟩ := ulpExponent_intCast hn h
    unfold round64
    rw [hj, zpow_neg, zpow_natCast, div_inv_eq_mul]
    have hcast : (n : ℚ) * 2 ^ j = ((n * 2 ^ j : ℤ) : ℚ) := by push_cast; ring
    rw [hcast, roundTiesEven_intCast]
    push_cast
    have : (2 : ℚ) ^ j ≠ 0 := pow_ne_zero _ (by norm_num)
    field_simp

theorem DBL_MAX_large : (2 : ℚ) ^ 54 ≤ DBL_MAX := by
  unfold DBL_MAX
  norm_num

theorem ofRat_intCast (n : ℤ) (h : |n| < 2 ^ 53) : Dbl.ofRat (n : ℚ) = Dbl.fin n := by
  unfold Dbl.ofRat
  rw [round64_intCast n h]
  have h1 : |(n : ℚ)| < 2 ^ 53 := by
    rw [← Int.cast_abs]; exact_mod_cast h
  have h2 := DBL_MAX_large
  rw [if_neg (by linarith)]

theorem ofRat_of_bounded {q : ℚ} (h0 : 0 ≤ q) (h1 : q ≤ 2 ^ 52) :
    Dbl.ofRat q = Dbl.fin (round64 q) := by
  unfold Dbl.ofRat
  have h2 := round64_le h0
  have h3 := round64_nonneg h0
  have h4 := DBL_MAX_large
  rw [abs_of_nonneg h3, if_neg]
  linarith

theorem round64_lt_DBL_MAX {q : ℚ} (h0 : 0 ≤ q) (h1 : q ≤ 2 ^ 52) : round64 q < DBL_MAX := by
  have h2 := round64_le h0
  have h4 := DBL_MAX_large
  linarith

/-! ### The rounding function on known values -/

theorem int_log_two_eq {q : ℚ} {e : ℤ} (hq : 0 < q) (h1 : (2 : ℚ) ^ e ≤ q)
    (h2 : q < (2 : ℚ) ^ (e + 1)) : Int.log 2 q = e := by
  have ha : e ≤ Int.log 2 q :=
    (Int.zpow_le_iff_le_log (by norm_num) hq).1 (by exact_mod_cast h1)
  have hb : Int.log 2 q < e + 1 :=
    (Int.lt_zpow_iff_log_lt (by norm_num) hq).1 (by exact_mod_cast h2)
  omega

theorem roundTiesEven_eq_floor {x : ℚ} {z : ℤ} (h1 : (z : ℚ) ≤ x) (h2 : x < z + 1 / 2) :
    roundTiesEven x = z := by
  have hf : ⌊x⌋ = z := Int.floor_eq_iff.2 ⟨h1, by linarith⟩
  unfold roundTiesEven
  rw [hf, if_pos (by linarith)]

theorem roundTiesEven_eq_ceil {x : ℚ} {z : ℤ} (h1 : (z : ℚ) + 1 / 2 < x) (h2 : x < z + 1) :
    roundTiesEven x = z + 1 := by
  have hf : ⌊x⌋ = z := Int.floor_eq_iff.2 ⟨by linarith, h2⟩
  unfold roundTiesEven
  rw [hf, if_neg (by linarith), if_pos (by linarith)]

/-- The `double` nearest to one third is `0x1.5555555555555p-2`. -/
theorem round64_one_third : round64 (1 / 3) = 6004799503160661 / 2 ^ 54 := by
  have hlog : Int.log 2 |(1 / 3 : ℚ)| = -2 := by
    rw [abs_of_pos (by norm_num)]
    exact int_log_two_eq (by norm_num) (by norm_num) (by norm_num)
  have hulp : ulpExponent (1 / 3) = -54 := by
    unfold ulpExponent; rw [hlog]; rfl
  have hr : roundTiesEven ((1 / 3 : ℚ) / 2 ^ (-54 : ℤ)) = 6004799503160661 :=
    roundTiesEven_eq_floor (by norm_num) (by norm_num)
  unfold round64
  rw [hulp, hr]
  norm_num

/-- The `double` nearest to one tenth is `0x1.999999999999ap-4` (rounded up). -/
theorem round64_one_tenth : round64 (1 / 10) = 7205759403792794 / 2 ^ 56 := by
  have hlog : Int.log 2 |(1 / 10 : ℚ)| = -4 := by
    rw [abs_of_pos (by norm_num)]
    exact int_log_two_eq (by norm_num) (by norm_num) (by norm_num)
  have hulp : ulpExponent (1 / 10) = -56 := by
    unfold ulpExponent; rw [hlog]; rfl
  have hr : roundTiesEven ((1 / 10 : ℚ) / 2 ^ (-56 : ℤ)) = 7205759403792793 + 1 :=
    roundTiesEven_eq_ceil (by norm_num) (by norm_num)
  unfold round64
  rw [hulp, hr]
  norm_num

/-! ### Mean squared error -/

theorem toUChar_range (c : Int) : 0 ≤ toUChar c ∧ toUChar c ≤ 255 := by
  unfold toUChar
  omega

theorem sqDiff_range (mem : Nat → Int) (image1 image2 i : Nat) :
    0 ≤ sqDiff mem image1 image2 i ∧ sqDiff mem image1 image2 i ≤ 65025 := by
  have h1 := toUChar_range (mem (image1 + i))
  have h2 := toUChar_range (mem (image2 + i))
  unfold sqDiff
  constructor <;> nlinarith

theorem sqDiff_eq_sq (mem : Nat → Int) (image1 image2 i : Nat) :
    sqDiff mem image1 image2 i =
      (toUChar (mem (image1 + i)) - toUChar (mem (image2 + i))) ^ 2 := by
  unfold sqDiff
  ring

theorem sqDiff_comm (mem : Nat → Int) (image1 image2 i : Nat) :
    sqDiff mem image1 image2 i = sqDiff mem image2 image1 i := by
  unfold sqDiff
  ring

theorem sqDiff_eq_zero_iff (mem : Nat → Int) (image1 image2 i : Nat) :
    sqDiff mem image1 image2 i = 0 ↔ toUChar (mem (image1 + i)) = toUChar (mem (image2 + i)) := by
  unfold sqDiff
  rw [mul_self_eq_zero, sub_eq_zero]

theorem sqSum_range (mem : Nat → Int) (image1 image2 n : Nat) :
    0 ≤ ∑ i ∈ Finset.range n, sqDiff mem image1 image2 i ∧
      ∑ i ∈ Finset.range n, sqDiff mem image1 image2 i ≤ 65025 * n := by
  constructor
  · exact Finset.sum_nonneg (fun i _ => (sqDiff_range mem image1 image2 i).1)
  · have h := Finset.sum_le_sum (f := fun i => sqDiff mem image1 image2 i) (g := fun _ => (65025 : ℤ))
      (fun i (_ : i ∈ Finset.range n) => (sqDiff_range mem image1 image2 i).2)
    simpa [mul_comm] using h

/-- The accumulation in `double` is exact: every partial sum is an integer
below `2 ^ 53`. -/
theorem mse_loop_exact (mem : Nat → Int) (image1 image2 : Nat) :
    ∀ n : Nat, 65025 * (n : ℤ) < 2 ^ 53 →
      (List.range n).foldl
          (fun mse i => Dbl.add mse (Dbl.ofInt (sqDiff mem image1 image2 i))) (Dbl.fin 0) =
        Dbl.fin ((∑ i ∈ Finset.range n, sqDiff mem image1 image2 i : ℤ) : ℚ) := by
  intro n
  induction n with
  | zero => intro _; simp
  | succ n ih =>
    intro hn
    have hn1 : 65025 * (n : ℤ) < 2 ^ 53 := by push_cast at hn; omega
    rw [List.range_succ, List.foldl_append, ih hn1, Finset.sum_range_succ]
    have hd := sqDiff_range mem image1 image2 n
    have hs := sqSum_range mem image1 image2 n
    have hdabs : |sqDiff mem image1 image2 n| < 2 ^ 53 := by
      rw [abs_of_nonneg hd.1]; omega
    have hsabs : |∑ i ∈ Finset.range n, sqDiff mem image1 image2 i +
        sqDiff mem image1 image2 n| < 2 ^ 53 := by
      rw [abs_of_nonneg (by omega)]; push_cast at hn; omega
    simp only [List.foldl_cons, List.foldl_nil, Dbl.ofInt, ofRat_intCast _ hdabs, Dbl.add]
    rw [← Int.cast_add, ofRat_intCast _ hsabs]

theorem calculate_mse_zero (mem : Nat → Int) (image1 image2 : Nat) :
    calculate_mse mem image1 image2 0 = Dbl.nan := by
  have h0 : Dbl.ofRat ((0 : ℤ) : ℚ) = Dbl.fin ((0 : ℤ) : ℚ) := ofRat_intCast 0 (by norm_num)
  simp only [Int.cast_zero] at h0
  simp [calculate_mse, Dbl.ofInt, h0, Dbl.div]

theorem calculate_mse_neg (mem : Nat → Int) (image1 image2 : Nat) {size : Int}
    (hneg : size < 0) (hmin : INT_MIN ≤ size) :
    calculate_mse mem image1 image2 size = Dbl.fin 0 := by
  have h0 : Dbl.ofRat ((0 : ℤ) : ℚ) = Dbl.fin ((0 : ℤ) : ℚ) := ofRat_intCast 0 (by norm_num)
  simp only [Int.cast_zero] at h0
  have hs : Dbl.ofRat (size : ℚ) = Dbl.fin size :=
    ofRat_intCast size (by rw [abs_of_neg hneg]; unfold INT_MIN at hmin; omega)
  have hne : (size : ℚ) ≠ 0 := by exact_mod_cast hneg.ne
  have hnat : size.toNat = 0 := by omega
  simp [calculate_mse, Dbl.ofInt, hs, hnat, Dbl.div, hne, h0]

theorem calculate_mse_pos (mem : Nat → Int) (image1 image2 : Nat) {size : Int}
    (hpos : 0 < size) (hmax : size ≤ INT_MAX) :
    calculate_mse mem image1 image2 size =
      Dbl.fin (round64
        (((∑ i ∈ Finset.range size.toNat, sqDiff mem image1 image2 i : ℤ) : ℚ) / size)) ∧
      (0 : ℚ) ≤ ((∑ i ∈ Finset.range size.toNat, sqDiff mem image1 image2 i : ℤ) : ℚ) / size ∧
      ((∑ i ∈ Finset.range size.toNat, sqDiff mem image1 image2 i : ℤ) : ℚ) / size ≤ 65025 := by
  unfold INT_MAX at hmax
  have hs : Dbl.ofRat (size : ℚ) = Dbl.fin size :=
    ofRat_intCast size (by rw [abs_of_pos hpos]; omega)
  have hne : (size : ℚ) ≠ 0 := by exact_mod_cast hpos.ne'
  have hcast : ((size.toNat : ℕ) : ℤ) = size := Int.toNat_of_nonneg hpos.le
  have hloop := mse_loop_exact mem image1 image2 size.toNat (by omega)
  have hsum := sqSum_range mem image1 image2 size.toNat
  rw [hcast] at hsum
  have hq : (0 : ℚ) < size := by exact_mod_cast hpos
  have h0 : (0 : ℚ) ≤
      ((∑ i ∈ Finset.range size.toNat, sqDiff mem image1 image2 i : ℤ) : ℚ) / size :=
    div_nonneg (by exact_mod_cast hsum.1) hq.le
  have h1 : ((∑ i ∈ Finset.range size.toNat, sqDiff mem image1 image2 i : ℤ) : ℚ) / size
      ≤ 65025 := by
    rw [div_le_iff₀ hq]
    exact_mod_cast hsum.2
  refine ⟨?_, h0, h1⟩
  unfold calculate_mse
  rw [hloop]
  simp only [Dbl.ofInt, hs, Dbl.div, if_neg hne]
  exact ofRat_of_bounded h0 (le_trans h1 (by norm_num))

theorem calculate_mse_eq_zero_iff (mem : Nat → Int) (image1 image2 : Nat) {size : Int}
    (hpos : 0 < size) (hmax : size ≤ INT_MAX) :
    calculate_mse mem image1 image2 size = Dbl.fin 0 ↔
      ∀ i : Nat, (i : Int) < size →
        toUChar (mem (image1 + i)) = toUChar (mem (image2 + i)) := by
  obtain ⟨heq, h0, -⟩ := calculate_mse_pos mem image1 image2 hpos hmax
  have hsum := sqSum_range mem image1 image2 size.toNat
  have hq : (0 : ℚ) < size := by exact_mod_cast hpos
  have hzero : (∑ i ∈ Finset.range size.toNat, sqDiff mem image1 image2 i) = 0 ↔
      ∀ i : Nat, (i : Int) < size →
        toUChar (mem (image1 + i)) = toUChar (mem (image2 + i)) := by
    rw [Finset.sum_eq_zero_iff_of_nonneg (fun i _ => (sqDiff_range mem image1 image2 i).1)]
    constructor
    · intro h i hi
      exact (sqDiff_eq_zero_iff mem image1 image2 i).1
        (h i (Finset.mem_range.2 (by omega)))
    · intro h i hi
      exact (sqDiff_eq_zero_iff mem image1 image2 i).2
        (h i (by have := Finset.mem_range.1 hi; omega))
  rw [← hzero, heq]
  constructor
  · intro h
    have hr : round64
        (((∑ i ∈ Finset.range size.toNat, sqDiff mem image1 image2 i : ℤ) : ℚ) / size) = 0 := by
      injection h
    by_contra hne
    have hge : 1 ≤ ∑ i ∈ Finset.range size.toNat, sqDiff mem image1 image2 i := by omega
    have hbig : (2 : ℚ) ^ (-1074 : ℤ) ≤
        ((∑ i ∈ Finset.range size.toNat, sqDiff mem image1 image2 i : ℤ) : ℚ) / size := by
      have h1 : (2 : ℚ) ^ (-1074 : ℤ) ≤ 2 ^ (-31 : ℤ) :=
        zpow_le_zpow_right₀ (by norm_num) (by norm_num)
      have h2 : (2 : ℚ) ^ (-31 : ℤ) = 1 / 2147483648 := by norm_num
      have h3 : (size : ℚ) ≤ 2147483648 := by
        unfold INT_MAX at hmax
        exact_mod_cast (by omega : size ≤ 2147483648)
      have h4 : (1 : ℚ) / 2147483648 ≤ 1 / size :=
        one_div_le_one_div_of_le hq h3
      have h5 : (1 : ℚ) / size ≤
          ((∑ i ∈ Finset.range size.toNat, sqDiff mem image1 image2 i : ℤ) : ℚ) / size :=
        div_le_div_of_nonneg_right (by exact_mod_cast hge) hq.le
      linarith
    have := round64_pos hbig
    linarith
  · intro h
    rw [h]
    simp [round64_zero]

/-- A score that is not a binary fraction is rounded: three bytes of which one
differs by 1 give the `double` nearest to one third. -/
theorem calculate_mse_one_third :
    calculate_mse (fun a => if a = 100 then 1 else 0) 100 500 3 =
      Dbl.fin (6004799503160661 / 2 ^ 54) := by
  rw [(calculate_mse_pos _ 100 500 (by decide) (by decide)).1]
  have h1 : (∑ i ∈ Finset.range (3 : ℤ).toNat,
      sqDiff (fun a => if a = 100 then 1 else 0) 100 500 i) = 1 := by
    decide
  rw [h1]
  have h2 : (((1 : ℤ) : ℚ) / ((3 : ℤ) : ℚ)) = 1 / 3 := by norm_num
  rw [h2, round64_one_third]

theorem toUChar_eq_unsignedByte {c : Int} (h1 : -128 ≤ c) (h2 : c ≤ 127) :
    toUChar c = unsignedByte c := by
  unfold toUChar unsignedByte
  split_ifs <;> omega

theorem toUChar_eq_iff {c d : Int} (hc1 : -128 ≤ c) (hc2 : c ≤ 127) (hd1 : -128 ≤ d)
    (hd2 : d ≤ 127) : toUChar c = toUChar d ↔ c = d := by
  unfold toUChar
  omega

/-- C9: for two buffers of `size > 0` bytes (`size` an `int`, the bytes held
as `char` values `-128..127`), `calculate_mse` returns the `double` quotient by
`size` of the exactly accumulated sum of `(u1[i] - u2[i])^2`, where `u1[i]`,
`u2[i]` are the bytes read as unsigned values: the conversion in the code
yields `c` for `c ≥ 0` and `c + 256`, in `128..255`, for a negative `char`.
Every unsigned value lies in `0..255` and every squared term in `0..65025`
(within `int`); the score is non-negative, symmetric in its two buffers, and
`0` exactly when the two buffers hold the same `size` bytes. -/
theorem calculate_mse_mean_squared_difference (mem : Nat → Int) (image1 image2 : Nat)
    (size : Int) (hpos : 0 < size) (hmax : size ≤ INT_MAX)
    (hchar1 : ∀ i : Nat, (i : Int) < size →
      -128 ≤ mem (image1 + i) ∧ mem (image1 + i) ≤ 127)
    (hchar2 : ∀ i : Nat, (i : Int) < size →
      -128 ≤ mem (image2 + i) ∧ mem (image2 + i) ≤ 127) :
    calculate_mse mem image1 image2 size =
      Dbl.fin (round64
        (((∑ i ∈ Finset.range size.toNat,
            (unsignedByte (mem (image1 + i)) - unsignedByte (mem (image2 + i))) ^ 2 : ℤ) : ℚ)
          / size)) ∧
    (∀ i : Nat, (i : Int) < size →
      toUChar (mem (image1 + i)) = unsignedByte (mem (image1 + i)) ∧
      toUChar (mem (image2 + i)) = unsignedByte (mem (image2 + i)) ∧
      (mem (image1 + i) < 0 → toUChar (mem (image1 + i)) = mem (image1 + i) + 256 ∧
        128 ≤ toUChar (mem (image1 + i))) ∧
      (0 ≤ mem (image1 + i) → toUChar (mem (image1 + i)) = mem (image1 + i)) ∧
      (0 ≤ unsignedByte (mem (image1 + i)) ∧ unsignedByte (mem (image1 + i)) ≤ 255) ∧
      (0 ≤ unsignedByte (mem (image2 + i)) ∧ unsignedByte (mem (image2 + i)) ≤ 255) ∧
      sqDiff mem image1 image2 i =
        (unsignedByte (mem (image1 + i)) - unsignedByte (mem (image2 + i))) ^ 2 ∧
      0 ≤ sqDiff mem image1 image2 i ∧ sqDiff mem image1 image2 i ≤ 65025 ∧
      sqDiff mem image1 image2 i ≤ INT_MAX) ∧
    (∃ q : ℚ, 0 ≤ q ∧ calculate_mse mem image1 image2 size = Dbl.fin q) ∧
    calculate_mse mem image1 image2 size = calculate_mse mem image2 image1 size ∧
    (calculate_mse mem image1 image2 size = Dbl.fin 0 ↔
      ∀ i : Nat, (i : Int) < size → mem (image1 + i) = mem (image2 + i)) := by
  obtain ⟨heq, h0, -⟩ := calculate_mse_pos mem image1 image2 hpos hmax
  have hsq : ∀ i : Nat, (i : Int) < size → sqDiff mem image1 image2 i =
      (unsignedByte (mem (image1 + i)) - unsignedByte (mem (image2 + i))) ^ 2 := by
    intro i hi
    rw [sqDiff_eq_sq, toUChar_eq_unsignedByte (hchar1 i hi).1 (hchar1 i hi).2,
      toUChar_eq_unsignedByte (hchar2 i hi).1 (hchar2 i hi).2]
  refine ⟨?_, ?_, ?_, ?_, ?_⟩
  · rw [heq]
    have hsum : (∑ i ∈ Finset.range size.toNat, sqDiff mem image1 image2 i) =
        ∑ i ∈ Finset.range size.toNat,
          (unsignedByte (mem (image1 + i)) - unsignedByte (mem (image2 + i))) ^ 2 :=
      Finset.sum_congr rfl
        (fun i hi => hsq i (by have := Finset.mem_range.1 hi; omega))
    rw [hsum]
  · intro i hi
    have hd := sqDiff_range mem image1 image2 i
    have e1 := toUChar_eq_unsignedByte (hchar1 i hi).1 (hchar1 i hi).2
    have e2 := toUChar_eq_unsignedByte (hchar2 i hi).1 (hchar2 i hi).2
    have r1 := toUChar_range (mem (image1 + i))
    have r2 := toUChar_range (mem (image2 + i))
    refine ⟨e1, e2, ?_, ?_, by rw [← e1]; exact r1, by rw [← e2]; exact r2, hsq i hi,
      hd.1, hd.2, by unfold INT_MAX; omega⟩
    · intro hneg
      unfold toUChar
      have := (hchar1 i hi).1
      omega
    · intro hnn
      unfold toUChar
      have := (hchar1 i hi).2
      omega
  · exact ⟨_, round64_nonneg h0, heq⟩
  · rw [heq, (calculate_mse_pos mem image2 image1 hpos hmax).1]
    simp only [sqDiff_comm mem image1 image2]
  · rw [calculate_mse_eq_zero_iff mem image1 image2 hpos hmax]
    constructor
    · intro h i hi
      exact (toUChar_eq_iff (hchar1 i hi).1 (hchar1 i hi).2 (hchar2 i hi).1
        (hchar2 i hi).2).1 (h i hi)
    · intro h i hi
      rw [h i hi]

theorem calculate_mse_mean_squared_difference_witness :
    calculate_mse (fun a => if a = 10 then -1 else 0) 10 20 1 = Dbl.fin 65025 ∧
    toUChar (-1) = 255 ∧
    calculate_mse (fun a => if a = 10 then -1 else 0) 10 20 1 ≠ Dbl.fin 0 := by
  have hc1 : ∀ i : Nat, (i : Int) < 1 →
      -128 ≤ (fun a : Nat => if a = 10 then (-1 : Int) else 0) (10 + i) ∧
        (fun a : Nat => if a = 10 then (-1 : Int) else 0) (10 + i) ≤ 127 := by
    intro i _
    by_cases h : 10 + i = 10 <;> simp [h]
  have hc2 : ∀ i : Nat, (i : Int) < 1 →
      -128 ≤ (fun a : Nat => if a = 10 then (-1 : Int) else 0) (20 + i) ∧
        (fun a : Nat => if a = 10 then (-1 : Int) else 0) (20 + i) ≤ 127 := by
    intro i _
    by_cases h : 20 + i = 10 <;> simp [h]
  have hthm := calculate_mse_mean_squared_difference
    (fun a => if a = 10 then -1 else 0) 10 20 1 (by decide) (by decide) hc1 hc2
  have hsum : (∑ i ∈ Finset.range (1 : ℤ).toNat,
      (unsignedByte ((fun a : Nat => if a = 10 then (-1 : Int) else 0) (10 + i)) -
        unsignedByte ((fun a : Nat => if a = 10 then (-1 : Int) else 0) (20 + i))) ^ 2) =
      65025 := by
    decide
  have hval : calculate_mse (fun a => if a = 10 then -1 else 0) 10 20 1 = Dbl.fin 65025 := by
    rw [hthm.1, hsum]
    have := round64_intCast 65025 (by norm_num)
    simpa using this
  refine ⟨hval, ?_, ?_⟩
  · have h := ((hthm.2.1 0 (by decide)).2.2.1 (by decide)).1
    simpa using h
  · rw [hval]
    intro h
    injection h with h
    norm_num at h

theorem calculate_mse_finite (mem : Nat → Int) (image1 image2 : Nat) {size : Int}
    (hne : size ≠ 0) (hmin : INT_MIN ≤ size) (hmax : size ≤ INT_MAX) :
    calculate_mse mem image1 image2 size =
        Dbl.fin (calculate_mse mem image1 image2 size).toRat ∧
      0 ≤ (calculate_mse mem image1 image2 size).toRat ∧
      (calculate_mse mem image1 image2 size).toRat < DBL_MAX := by
  rcases lt_or_gt_of_ne hne with hneg | hpos
  · rw [calculate_mse_neg mem image1 image2 hneg hmin]
    have := DBL_MAX_large
    refine ⟨rfl, le_refl _, ?_⟩
    show (0 : ℚ) < DBL_MAX
    linarith
  · obtain ⟨heq, h0, h1⟩ := calculate_mse_pos mem image1 image2 hpos hmax
    rw [heq]
    exact ⟨rfl, round64_nonneg h0, round64_lt_DBL_MAX h0 (le_trans h1 (by norm_num))⟩

theorem image_match_step_skip (mem : Nat → Int) (input_image : Nat) (size : Int)
    (acc : Dbl × database_entry_t) (e : database_entry_t) (h : e.file_size ≠ size) :
    image_match_step mem input_image size acc e = acc := by
  simp [image_match_step, h]

theorem image_match_step_fin (mem : Nat → Int) (input_image : Nat) (size : Int)
    (m : ℚ) (b e : database_entry_t) (h : e.file_size = size)
    (hfin : calculate_mse mem input_image e.buffer size =
      Dbl.fin (calculate_mse mem input_image e.buffer size).toRat) :
    image_match_step mem input_image size (Dbl.fin m, b) e =
      if (calculate_mse mem input_image e.buffer size).toRat < m then
        (Dbl.fin (calculate_mse mem input_image e.buffer size).toRat, e)
      else (Dbl.fin m, b) := by
  unfold image_match_step
  rw [if_pos h]
  generalize calculate_mse mem input_image e.buffer size = d at hfin ⊢
  rw [hfin]
  simp [Dbl.lt, Dbl.toRat]

/-- Scan of a list of entries whose same-size scores are finite, from the
running minimum `m` and best entry `b`: either nothing beats `m`, or the scan
ends on the first entry of least score. -/
theorem image_match_fold (mem : Nat → Int) (input_image : Nat) (size : Int) :
    ∀ (l : List database_entry_t),
      (∀ e ∈ l, e.file_size = size →
        calculate_mse mem input_image e.buffer size =
          Dbl.fin (calculate_mse mem input_image e.buffer size).toRat) →
      ∀ (m : ℚ) (b : database_entry_t),
        (l.foldl (image_match_step mem input_image size) (Dbl.fin m, b) = (Dbl.fin m, b) ∧
          ∀ e ∈ l, e.file_size = size →
            m ≤ (calculate_mse mem input_image e.buffer size).toRat) ∨
        (∃ pre e post, l = pre ++ e :: post ∧
          l.foldl (image_match_step mem input_image size) (Dbl.fin m, b) =
            (Dbl.fin (calculate_mse mem input_image e.buffer size).toRat, e) ∧
          e.file_size = size ∧
          (calculate_mse mem input_image e.buffer size).toRat < m ∧
          (∀ x ∈ pre, x.file_size = size →
            (calculate_mse mem input_image e.buffer size).toRat <
              (calculate_mse mem input_image x.buffer size).toRat) ∧
          (∀ x ∈ post, x.file_size = size →
            (calculate_mse mem input_image e.buffer size).toRat ≤
              (calculate_mse mem input_image x.buffer size).toRat)) := by
  intro l
  induction l with
  | nil => intro _ m b; left; simp
  | cons x l ih =>
    intro hfin m b
    have hfinl : ∀ e ∈ l, e.file_size = size →
        calculate_mse mem input_image e.buffer size =
          Dbl.fin (calculate_mse mem input_image e.buffer size).toRat :=
      fun e he => hfin e (List.mem_cons_of_mem _ he)
    rw [List.foldl_cons]
    by_cases hx : x.file_size = size
    · rw [image_match_step_fin mem input_image size m b x hx (hfin x (List.mem_cons_self _ _) hx)]
      by_cases hlt : (calculate_mse mem input_image x.buffer size).toRat < m
      · rw [if_pos hlt]
        rcases ih hfinl (calculate_mse mem input_image x.buffer size).toRat x with
          ⟨hfold, hall⟩ | ⟨pre, e, post, hl, hfold, he, hem, hpre, hpost⟩
        · right
          exact ⟨[], x, l, rfl, hfold, hx, hlt, by simp, hall⟩
        · right
          refine ⟨x :: pre, e, post, by rw [hl]; rfl, hfold, he, lt_trans hem hlt, ?_, hpost⟩
          intro y hy hys
          rcases List.mem_cons.1 hy with rfl | hy
          · exact hem
          · exact hpre y hy hys
      · rw [if_neg hlt]
        rcases ih hfinl m b with
          ⟨hfold, hall⟩ | ⟨pre, e, post, hl, hfold, he, hem, hpre, hpost⟩
        · left
          refine ⟨hfold, ?_⟩
          intro y hy hys
          rcases List.mem_cons.1 hy with rfl | hy
          · exact not_lt.1 hlt
          · exact hall y hy hys
        · right
          refine ⟨x :: pre, e, post, by rw [hl]; rfl, hfold, he, hem, ?_, hpost⟩
          intro y hy hys
          rcases List.mem_cons.1 hy with rfl | hy
          · exact lt_of_lt_of_le hem (not_lt.1 hlt)
          · exact hpre y hy hys
    · rw [image_match_step_skip mem input_image size _ x hx]
      rcases ih hfinl m b with
        ⟨hfold, hall⟩ | ⟨pre, e, post, hl, hfold, he, hem, hpre, hpost⟩
      · left
        refine ⟨hfold, ?_⟩
        intro y hy hys
        rcases List.mem_cons.1 hy with rfl | hy
        · exact absurd hys hx
        · exact hall y hy hys
      · right
        refine ⟨x :: pre, e, post, by rw [hl]; rfl, hfold, he, hem, ?_, hpost⟩
        intro y hy hys
        rcases List.mem_cons.1 hy with rfl | hy
        · exact absurd hys hx
        · exact hpre y hy hys

theorem dbl_lt_fin (d1 d2 : Dbl) (h1 : d1 = Dbl.fin d1.toRat) (h2 : d2 = Dbl.fin d2.toRat) :
    Dbl.lt d1 d2 = decide (d1.toRat < d2.toRat) := by
  rw [h1, h2]; rfl

/-- For a query size other than 0 with at least one same-size entry,
`image_match` returns the first entry of least score: `database` splits as
`pre ++ e :: post` with `e` returned, every same-size entry before `e` scoring
strictly higher and no same-size entry anywhere scoring strictly lower. -/
theorem image_match_first_minimum (mem : Nat → Int) (database : List database_entry_t)
    (input_image : Nat) (size : Int) (hne : size ≠ 0) (hmin : INT_MIN ≤ size)
    (hmax : size ≤ INT_MAX) (hex : ∃ e ∈ database, e.file_size = size) :
    ∃ pre e post, database = pre ++ e :: post ∧
      image_match mem database input_image size = e ∧ e.file_size = size ∧
      (∀ x ∈ pre, x.file_size = size →
        Dbl.lt (calculate_mse mem input_image e.buffer size)
          (calculate_mse mem input_image x.buffer size) = true) ∧
      (∀ x ∈ database, x.file_size = size →
        Dbl.lt (calculate_mse mem input_image x.buffer size)
          (calculate_mse mem input_image e.buffer size) = false) := by
  have hfin : ∀ buffer : Nat, calculate_mse mem input_image buffer size =
        Dbl.fin (calculate_mse mem input_image buffer size).toRat :=
    fun buffer => (calculate_mse_finite mem input_image buffer hne hmin hmax).1
  rcases image_match_fold mem input_image size database (fun e _ _ => hfin e.buffer)
      DBL_MAX no_match with ⟨-, hall⟩ | ⟨pre, e, post, hl, hfold, he, hem, hpre, hpost⟩
  · obtain ⟨e, hmem, he⟩ := hex
    have h1 := hall e hmem he
    have h2 := (calculate_mse_finite mem input_image e.buffer hne hmin hmax).2.2
    exact absurd h2 (not_lt.2 h1)
  · refine ⟨pre, e, post, hl, ?_, he, ?_, ?_⟩
    · unfold image_match; rw [hfold]
    · intro x hx hxs
      rw [dbl_lt_fin _ _ (hfin _) (hfin _)]
      exact decide_eq_true (hpre x hx hxs)
    · intro x hx hxs
      rw [dbl_lt_fin _ _ (hfin _) (hfin _)]
      apply decide_eq_false
      rw [not_lt]
      rw [hl] at hx
      rcases List.mem_append.1 hx with h | h
      · exact (hpre x h hxs).le
      · rcases List.mem_cons.1 h with rfl | h
        · exact le_refl _
        · exact hpost x h hxs

theorem image_match_fold_skip (mem : Nat → Int) (input_image : Nat) (size : Int) :
    ∀ (l : List database_entry_t) (acc : Dbl × database_entry_t),
      (∀ e ∈ l, e.file_size ≠ size) →
      l.foldl (image_match_step mem input_image size) acc = acc := by
  intro l
  induction l with
  | nil => intro acc _; rfl
  | cons x l ih =>
    intro acc h
    rw [List.foldl_cons, image_match_step_skip mem input_image size acc x
      (h x (List.mem_cons_self _ _))]
    exact ih acc (fun e he => h e (List.mem_cons_of_mem _ he))

theorem image_match_fold_mem (mem : Nat → Int) (input_image : Nat) (size : Int) :
    ∀ (l : List database_entry_t) (acc : Dbl × database_entry_t),
      (l.foldl (image_match_step mem input_image size) acc).2 = acc.2 ∨
      (l.foldl (image_match_step mem input_image size) acc).2 ∈ l := by
  intro l
  induction l with
  | nil => intro acc; left; rfl
  | cons x l ih =>
    intro acc
    rw [List.foldl_cons]
    rcases ih (image_match_step mem input_image size acc x) with h | h
    · rw [h]
      unfold image_match_step
      split_ifs
      · right; exact List.mem_cons_self _ _
      · left; rfl
      · left; rfl
    · right; exact List.mem_cons_of_mem _ h

/-- C4: when no database entry has `file_size` equal to the query size (in
particular when the database is empty), `image_match` returns the no-match
value, with empty `file_name`, `file_size` 0 and `NULL` buffer, whatever the
payload bytes in memory are. -/
theorem image_match_no_same_size (mem : Nat → Int) (database : List database_entry_t)
    (input_image : Nat) (size : Int) (h : ∀ e ∈ database, e.file_size ≠ size) :
    image_match mem database input_image size = no_match ∧
      (image_match mem database input_image size).file_name = "" ∧
      (image_match mem database input_image size).file_size = 0 ∧
      (image_match mem database input_image size).buffer = 0 := by
  have : image_match mem database input_image size = no_match := by
    unfold image_match
    rw [image_match_fold_skip mem input_image size database _ h]
  rw [this]
  exact ⟨rfl, rfl, rfl, rfl⟩

theorem image_match_no_same_size_witness :
    image_match (fun a => if a = 100 then 7 else 0)
        [⟨"a.png", 3, 500⟩, ⟨"b.png", 1, 600⟩] 100 2 = no_match ∧
      image_match (fun _ => 0) [] 100 2 = no_match :=
  ⟨(image_match_no_same_size (fun a => if a = 100 then 7 else 0)
      [⟨"a.png", 3, 500⟩, ⟨"b.png", 1, 600⟩] 100 2 (by decide)).1,
    (image_match_no_same_size (fun _ => 0) [] 100 2 (by decide)).1⟩

/-- C6: after the dequeue, when the match has a non-`NULL` buffer the worker
performs exactly one send of `match.buffer` with length `match.file_size` to
the request's descriptor, then exactly one log record (an `Effect.log_record`
for this worker, on the log file unless `logfile` is `NULL`), then one close of
the descriptor and one free of the request buffer, with one progress line on
`stdout` before and after the log record; when the match buffer is `NULL` it
performs only the close and the free, so no send and no log record.  With a
database whose entries all have a buffer, the first case is the one where
`image_match` returns a database entry and the second the one where it returns
the no-match value. -/
theorem worker_serve_effects (mem : Nat → Int) (database : List database_entry_t)
    (logfile : Nat) (thread_id_num request_num : Int) (req : request_t) :
    ((image_match mem database req.buffer req.file_size).buffer ≠ 0 →
      (worker_serve mem database logfile thread_id_num request_num req).1 =
        [Effect.send_file_to_client req.file_descriptor
            (image_match mem database req.buffer req.file_size).buffer
            (image_match mem database req.buffer req.file_size).file_size,
          Effect.printf_logging request_num thread_id_num,
          Effect.log_record (decide (logfile = 0)) 0 thread_id_num (request_num + 1)
            (image_match mem database req.buffer req.file_size).file_name
            (image_match mem database req.buffer req.file_size).file_size (Dbl.fin 0),
          Effect.printf_logged,
          Effect.close req.file_descriptor,
          Effect.free req.buffer] ∧
      (worker_serve mem database logfile thread_id_num request_num req).1.filter
          (fun e => !e.isDiagnostic) =
        [Effect.send_file_to_client req.file_descriptor
            (image_match mem database req.buffer req.file_size).buffer
            (image_match mem database req.buffer req.file_size).file_size,
          Effect.log_record (decide (logfile = 0)) 0 thread_id_num (request_num + 1)
            (image_match mem database req.buffer req.file_size).file_name
            (image_match mem database req.buffer req.file_size).file_size (Dbl.fin 0),
          Effect.close req.file_descriptor,
          Effect.free req.buffer] ∧
      ((worker_serve mem database logfile thread_id_num request_num req).1.filterMap
          Effect.requestNumber).length = 1) ∧
    ((image_match mem database req.buffer req.file_size).buffer = 0 →
      (worker_serve mem database logfile thread_id_num request_num req).1 =
        [Effect.close req.file_descriptor, Effect.free req.buffer] ∧
      ((worker_serve mem database logfile thread_id_num request_num req).1.filterMap
          Effect.requestNumber).length = 0) ∧
    ((∀ e ∈ database, e.buffer ≠ 0) →
      ((image_match mem database req.buffer req.file_size).buffer ≠ 0 ↔
        image_match mem database req.buffer req.file_size ∈ database) ∧
      ((image_match mem database req.buffer req.file_size).buffer = 0 ↔
        image_match mem database req.buffer req.file_size = no_match)) := by
  refine ⟨?_, ?_, ?_⟩
  · intro h
    simp [worker_serve, h, LogPrettyPrint, Effect.isDiagnostic, Effect.requestNumber]
  · intro h
    simp [worker_serve, h, Effect.requestNumber]
  · intro hdb
    have hmem := image_match_fold_mem mem req.buffer req.file_size database
      (Dbl.fin DBL_MAX, no_match)
    change image_match mem database req.buffer req.file_size = no_match ∨
      image_match mem database req.buffer req.file_size ∈ database at hmem
    have hnm : no_match ∉ database := fun h => hdb no_match h rfl
    constructor
    · constructor
      · intro h
        rcases hmem with h1 | h1
        · rw [h1] at h; exact absurd rfl h
        · exact h1
      · intro h; exact hdb _ h
    · constructor
      · intro h
        rcases hmem with h1 | h1
        · exact h1
        · exact absurd h (hdb _ h1)
      · intro h; rw [h]; rfl

/-- For a query size other than 0: a payload that agrees byte for byte with the
buffer of a same-size entry `e` scores `0` against it, and `e` is returned when
no same-size entry before it scores `0`. -/
theorem image_match_exact_duplicate (mem : Nat → Int) (pre post : List database_entry_t)
    (e : database_entry_t) (input_image : Nat) (size : Int) (hne : size ≠ 0)
    (hmin : INT_MIN ≤ size) (hmax : size ≤ INT_MAX) (hsize : e.file_size = size)
    (hident : ∀ i : Nat, (i : Int) < size → mem (input_image + i) = mem (e.buffer + i))
    (hfirst : ∀ x ∈ pre, x.file_size = size →
      calculate_mse mem input_image x.buffer size ≠ Dbl.fin 0) :
    calculate_mse mem input_image e.buffer size = Dbl.fin 0 ∧
      image_match mem (pre ++ e :: post) input_image size = e := by
  have hfin : ∀ buffer : Nat, calculate_mse mem input_image buffer size =
        Dbl.fin (calculate_mse mem input_image buffer size).toRat :=
    fun buffer => (calculate_mse_finite mem input_image buffer hne hmin hmax).1
  have hnn : ∀ buffer : Nat, 0 ≤ (calculate_mse mem input_image buffer size).toRat :=
    fun buffer => (calculate_mse_finite mem input_image buffer hne hmin hmax).2.1
  have hzero : calculate_mse mem input_image e.buffer size = Dbl.fin 0 := by
    rcases lt_or_gt_of_ne hne with hneg | hpos
    · exact calculate_mse_neg mem input_image e.buffer hneg hmin
    · rw [calculate_mse_eq_zero_iff mem input_image e.buffer hpos hmax]
      intro i hi
      rw [hident i hi]
  refine ⟨hzero, ?_⟩
  have hzr : (calculate_mse mem input_image e.buffer size).toRat = 0 := by rw [hzero]; rfl
  -- the running minimum after the entries before `e` is positive
  have hpre : ∃ m b, 0 < m ∧
      pre.foldl (image_match_step mem input_image size) (Dbl.fin DBL_MAX, no_match) =
        (Dbl.fin m, b) := by
    rcases image_match_fold mem input_image size pre (fun x _ _ => hfin x.buffer)
        DBL_MAX no_match with ⟨hfold, -⟩ | ⟨p1, x, p2, hl, hfold, hx, -, -, -⟩
    · exact ⟨DBL_MAX, no_match, by have := DBL_MAX_large; linarith, hfold⟩
    · refine ⟨_, x, ?_, hfold⟩
      have hxmem : x ∈ pre := by rw [hl]; simp
      have h1 := hfirst x hxmem hx
      have h2 := hnn x.buffer
      rcases h2.lt_or_eq with h3 | h3
      · exact h3
      · exfalso; apply h1; rw [hfin x.buffer, ← h3]
  obtain ⟨m, b, hm, hfoldpre⟩ := hpre
  unfold image_match
  rw [List.foldl_append, hfoldpre, List.foldl_cons,
    image_match_step_fin mem input_image size m b e hsize (hfin e.buffer), hzr, if_pos hm]
  rcases image_match_fold mem input_image size post (fun x _ _ => hfin x.buffer) 0 e with
    ⟨hfold, -⟩ | ⟨p1, x, p2, -, -, -, hlt, -, -⟩
  · rw [hfold]
  · exact absurd hlt (not_lt.2 (hnn x.buffer))

theorem image_match_exact_duplicate_witness :
    calculate_mse (fun _ => 5) 100 500 2 = Dbl.fin 0 ∧
      image_match (fun _ => 5) ([] ++ ⟨"a.png", 2, 500⟩ :: [⟨"b.png", 2, 600⟩]) 100 2 =
        ⟨"a.png", 2, 500⟩ :=
  image_match_exact_duplicate (fun _ => 5) [] [⟨"b.png", 2, 600⟩] ⟨"a.png", 2, 500⟩ 100 2
    (by decide) (by decide) (by decide) rfl (fun _ _ => rfl) (by simp)

theorem image_match_first_minimum_witness :
    ∃ pre e post, [(⟨"a.png", 2, 500⟩ : database_entry_t), ⟨"b.png", 2, 600⟩] =
        pre ++ e :: post ∧
      image_match (fun _ => 5) [⟨"a.png", 2, 500⟩, ⟨"b.png", 2, 600⟩] 100 2 = e ∧
      e.file_size = 2 ∧
      (∀ x ∈ pre, x.file_size = 2 →
        Dbl.lt (calculate_mse (fun _ => 5) 100 e.buffer 2)
          (calculate_mse (fun _ => 5) 100 x.buffer 2) = true) ∧
      (∀ x ∈ [(⟨"a.png", 2, 500⟩ : database_entry_t), ⟨"b.png", 2, 600⟩], x.file_size = 2 →
        Dbl.lt (calculate_mse (fun _ => 5) 100 x.buffer 2)
          (calculate_mse (fun _ => 5) 100 e.buffer 2) = false) :=
  image_match_first_minimum (fun _ => 5) [⟨"a.png", 2, 500⟩, ⟨"b.png", 2, 600⟩] 100 2
    (by decide) (by decide) (by decide) ⟨⟨"a.png", 2, 500⟩, by simp, rfl⟩

/-- C2 (failing input): the database holds one entry of size 0, the query has
size 0.  `calculate_mse` divides `0.0` by `0`, the score is NaN, the test
`mse < min_mse` is false, and `image_match` returns the no-match value although
a same-size entry exists. -/
theorem image_match_size_zero_unmatched :
    (∃ e ∈ [(⟨"empty.png", 0, 500⟩ : database_entry_t)], e.file_size = 0) ∧
      calculate_mse (fun _ => 0) 100 500 0 = Dbl.nan ∧
      image_match (fun _ => 0) [⟨"empty.png", 0, 500⟩] 100 0 = no_match ∧
      no_match ∉ [(⟨"empty.png", 0, 500⟩ : database_entry_t)] := by
  refine ⟨⟨_, List.mem_singleton.2 rfl, rfl⟩, calculate_mse_zero _ _ _, ?_, by decide⟩
  simp [image_match, image_match_step, calculate_mse_zero, Dbl.lt]

/-- C5 (failing input): a payload of size 0 is byte-identical to the buffer of
the only stored entry, of size 0, yet its score is NaN rather than `0` and
`image_match` does not return that entry. -/
theorem exact_duplicate_size_zero_unmatched :
    (∀ i : Nat, (i : Int) < 0 →
      (fun _ : Nat => (0 : Int)) (100 + i) = (fun _ : Nat => (0 : Int)) (500 + i)) ∧
      calculate_mse (fun _ => 0) 100 (⟨"empty.png", 0, 500⟩ : database_entry_t).buffer 0 ≠
        Dbl.fin 0 ∧
      image_match (fun _ => 0) [⟨"empty.png", 0, 500⟩] 100 0 ≠ ⟨"empty.png", 0, 500⟩ := by
  refine ⟨fun _ _ => rfl, ?_, ?_⟩
  · rw [calculate_mse_zero]; exact fun h => Dbl.noConfusion h
  · have : image_match (fun _ => 0) [⟨"empty.png", 0, 500⟩] 100 0 = no_match := by
      simp [image_match, image_match_step, calculate_mse_zero, Dbl.lt]
    rw [this]
    decide

/-- C7 (failing input): the database holds one 1-byte image with byte 0, the
request payload is the byte 1.  The match is found and its score is `1.0`, but
the log record the worker emits carries `0.0`: `worker` passes its local `mse`,
which is never assigned after its initialisation to `0.0`. -/
theorem worker_logs_zero_score :
    calculate_mse (fun a => if a = 100 then 1 else 0) 100 500 1 = Dbl.fin 1 ∧
      image_match (fun a => if a = 100 then 1 else 0) [⟨"a.png", 1, 500⟩] 100 1 =
        ⟨"a.png", 1, 500⟩ ∧
      (worker_serve (fun a => if a = 100 then 1 else 0) [⟨"a.png", 1, 500⟩] 900 3 0
          ⟨7, 100, 1⟩).1 =
        [Effect.send_file_to_client 7 500 1,
          Effect.printf_logging 0 3,
          Effect.log_record false 0 3 1 "a.png" 1 (Dbl.fin 0),
          Effect.printf_logged,
          Effect.close 7,
          Effect.free 100] := by
  have hmse : calculate_mse (fun a => if a = 100 then 1 else 0) 100 500 1 = Dbl.fin 1 := by
    rw [(calculate_mse_pos _ 100 500 (by decide) (by decide)).1]
    have h1 : (∑ i ∈ Finset.range (1 : ℤ).toNat,
        sqDiff (fun a => if a = 100 then 1 else 0) 100 500 i) = 1 := by
      decide
    rw [h1]
    have := round64_intCast 1 (by norm_num)
    simpa using this
  have hmatch : image_match (fun a => if a = 100 then 1 else 0) [⟨"a.png", 1, 500⟩] 100 1 =
      ⟨"a.png", 1, 500⟩ := by
    have hlt : (1 : ℚ) < DBL_MAX := by have := DBL_MAX_large; linarith
    simp [image_match, image_match_step, hmse, Dbl.lt, hlt]
  refine ⟨hmse, hmatch, ?_⟩
  simp [worker_serve, hmatch, LogPrettyPrint]

/-- The log records of a worker carry consecutive sequence numbers: started
with counter `request_num`, the records emitted while serving `reqs` are
numbered `request_num + 1`, `request_num + 2`, and so on, one per request for
which the match has a buffer. -/
theorem worker_sequence_numbers (mem : Nat → Int) (database : List database_entry_t)
    (logfile : Nat) (thread_id_num : Int) :
    ∀ (reqs : List request_t) (request_num : Int),
      (worker mem database logfile thread_id_num request_num reqs).filterMap
          Effect.requestNumber =
        (List.range (reqs.filter
            (fun r => decide ((image_match mem database r.buffer r.file_size).buffer ≠ 0))).length).map
          (fun (k : Nat) => request_num + 1 + (k : Int)) := by
  intro reqs
  induction reqs with
  | nil => intro n; simp [worker]
  | cons req reqs ih =>
    intro n
    by_cases h : (image_match mem database req.buffer req.file_size).buffer ≠ 0
    · have hserve : worker_serve mem database logfile thread_id_num n req =
          ([Effect.send_file_to_client req.file_descriptor
              (image_match mem database req.buffer req.file_size).buffer
              (image_match mem database req.buffer req.file_size).file_size,
            Effect.printf_logging n thread_id_num,
            LogPrettyPrint logfile 0 thread_id_num (n + 1)
              (image_match mem database req.buffer req.file_size).file_name
              (image_match mem database req.buffer req.file_size).file_size (Dbl.fin 0),
            Effect.printf_logged,
            Effect.close req.file_descriptor,
            Effect.free req.buffer], n + 1) := by
        simp only [worker_serve, if_pos h]
      have hfilter : (req :: reqs).filter
          (fun r => decide ((image_match mem database r.buffer r.file_size).buffer ≠ 0)) =
          req :: reqs.filter
            (fun r => decide ((image_match mem database r.buffer r.file_size).buffer ≠ 0)) := by
        rw [List.filter_cons_of_pos (by simpa using h)]
      rw [worker, hserve, hfilter, List.filterMap_append, ih (n + 1)]
      simp only [List.length_cons, List.range_succ_eq_map, List.map_cons, List.map_map]
      simp only [List.filterMap_cons, Effect.requestNumber, LogPrettyPrint, List.filterMap_nil,
        List.singleton_append, Nat.cast_zero, add_zero, List.cons.injEq, true_and]
      apply List.map_congr_left
      intro k _
      simp only [Function.comp, Nat.succ_eq_add_one]
      push_cast
      ring
    · have hserve : worker_serve mem database logfile thread_id_num n req =
          ([Effect.close req.file_descriptor, Effect.free req.buffer], n) := by
        simp only [worker_serve, if_neg h]
      have hfilter : (req :: reqs).filter
          (fun r => decide ((image_match mem database r.buffer r.file_size).buffer ≠ 0)) =
          reqs.filter
            (fun r => decide ((image_match mem database r.buffer r.file_size).buffer ≠ 0)) := by
        rw [List.filter_cons_of_neg (by simpa using h)]
      rw [worker, hserve, hfilter, List.filterMap_append, ih n]
      simp [Effect.requestNumber]



end ImageServer
